import Mathlib

/-!
A verification development for the local optimizer in
src/FirstAssignment/LocalOpts.cpp: a single-basic-block LLVM pass that
performs algebraic-identity / strength-reduction rewriting, cancellation of
opposite add/sub pairs, and dead-code elimination, driven once per basic
block over every function of a module.

The embedding is a shallow one: instructions are records with an opcode and
two operand values; a basic block is a list of instructions; a function is a
list of blocks and a module a list of functions.  Machine integers
(llvm::APInt of a fixed width w) are represented by natural numbers taken
modulo 2 ^ w.  Instructions are identified by numeric ids; the use-list view
of the def-use graph is recovered by counting operand slots that reference a
given id.  replaceAllUsesWith is a map over every instruction in scope
(instructions of one function can only be referenced from that same
function, so the scope of a rewrite is the enclosing function: the block
being transformed plus the flattened remaining blocks, threaded as `ext`).
-/

namespace LocalOpts

/-- Instruction opcodes.  The source dispatches on Add, Mul, SDiv and also
creates Shl, LShr and Sub instructions; every other opcode is opaque. -/
inductive Opcode where
  | add
  | sub
  | mul
  | sdiv
  | shl
  | lshr
  | other : Nat → Opcode
deriving DecidableEq

/-- An operand value: an integer constant (llvm::ConstantInt, stored as its
unsigned w-bit value), a reference to the instruction with a given id, or an
opaque external value such as a function argument. -/
inductive Value where
  | constInt : Nat → Value
  | ref : Nat → Value
  | param : Nat → Value
deriving DecidableEq

/-- An instruction: a unique id, an opcode and exactly two operands. -/
structure Instr where
  id : Nat
  opcode : Opcode
  op0 : Value
  op1 : Value
deriving DecidableEq

/-- Whether a value is a ConstantInt (dyn_cast to ConstantInt succeeds). -/
def Value.isConst : Value → Bool
  | .constInt _ => true
  | _ => false

/-- LocalOpts.cpp lines 19-32, getConstantFromInstruction: if operand 0 is a
ConstantInt return (that constant, operand 1); else if operand 1 is a
ConstantInt return (that constant, operand 0); else fail. -/
def getConstantFromInstruction (I : Instr) : Option (Nat × Value) :=
  match I.op0 with
  | .constInt c => some (c, I.op1)
  | _ =>
    match I.op1 with
    | .constInt c => some (c, I.op0)
    | _ => none

/-- Base-2 logarithm by repeated halving, with explicit structural fuel so
that it evaluates by kernel reduction (the first argument is the fuel). -/
def log2F : Nat → Nat → Nat
  | 0, _ => 0
  | f + 1, n => if n < 2 then 0 else log2F f (n / 2) + 1

/-- APInt::exactLogBase2: for a power of two, its base-2 logarithm. -/
def exactLogBase2 (c : Nat) : Nat := log2F c c

/-- APInt::isPowerOf2 on the unsigned w-bit value: nonzero with exactly one
bit set. -/
def isPow2 (c : Nat) : Bool := c != 0 && decide (2 ^ exactLogBase2 c = c)

/-- APInt subtraction of 1, wrapping modulo 2 ^ w. -/
def subOne (w c : Nat) : Nat := (c + (2 ^ w - 1)) % 2 ^ w

/-- APInt addition of 1, wrapping modulo 2 ^ w. -/
def addOne (w c : Nat) : Nat := (c + 1) % 2 ^ w

/-- One operand slot under Value::replaceAllUsesWith: a reference to
instruction i becomes v, everything else is untouched. -/
def rauwV (i : Nat) (v : Value) : Value → Value
  | .ref j => if j = i then v else .ref j
  | x => x

/-- One instruction under replaceAllUsesWith of instruction i by v. -/
def rauwI (i : Nat) (v : Value) (J : Instr) : Instr :=
  { J with op0 := rauwV i v J.op0, op1 := rauwV i v J.op1 }

/-- replaceAllUsesWith over a list of instructions. -/
def rauwL (i : Nat) (v : Value) (l : List Instr) : List Instr :=
  l.map (rauwI i v)

/-- How many operand slots of J reference instruction i. -/
def usesIn (i : Nat) (J : Instr) : Nat :=
  (if J.op0 = Value.ref i then 1 else 0) + (if J.op1 = Value.ref i then 1 else 0)

/-- Total number of uses of instruction i across a list of instructions
(the size of the use list of i restricted to that scope). -/
def usesCount (i : Nat) (l : List Instr) : Nat :=
  (l.map (usesIn i)).sum

/-- llvm::Instruction::isBinaryOp: true for the binary arithmetic and shift
opcodes, false for opaque (control-flow / side-effecting) instructions. -/
def Instr.isBinaryOp (I : Instr) : Bool :=
  match I.opcode with
  | .other _ => false
  | _ => true

/-- The switch body of algebraicIdentity_stregthReduction (LocalOpts.cpp
lines 47-121) for one instruction.  Returns the list of newly created
instructions, spliced immediately after the current one (in order), the
optional value every use of the current instruction is replaced with, and
the next free id for created instructions.
  - Add (lines 48-56): if classifiable and the constant is 0, replace all
    uses with the variable operand.
  - Mul (lines 57-96): if classifiable: constant 1 replaces uses with the
    variable; else a power of two 2 ^ k inserts a Shl by k taking all uses;
    else constant-1 a power of two inserts Shl then Add (shl, variable);
    else constant+1 a power of two inserts Shl then Sub (shl, variable).
  - SDiv (lines 97-118): only operand 1 is tested for being a constant;
    constant 1 replaces uses with operand 0; a power of two inserts a
    logical right shift LShr by k taking all uses.
  - Any other opcode: no rewrite. -/
def algInstrStep (w fresh : Nat) (I : Instr) : List Instr × Option Value × Nat :=
  match I.opcode with
  | .add =>
    match getConstantFromInstruction I with
    | none => ([], none, fresh)
    | some (c, p) => if c = 0 then ([], some p, fresh) else ([], none, fresh)
  | .mul =>
    match getConstantFromInstruction I with
    | none => ([], none, fresh)
    | some (c, p) =>
      if c = 1 then ([], some p, fresh)
      else if isPow2 c then
        ([⟨fresh, .shl, p, .constInt (exactLogBase2 c)⟩],
          some (.ref fresh), fresh + 1)
      else if isPow2 (subOne w c) then
        ([⟨fresh, .shl, p, .constInt (exactLogBase2 (subOne w c))⟩,
          ⟨fresh + 1, .add, .ref fresh, p⟩],
          some (.ref (fresh + 1)), fresh + 2)
      else if isPow2 (addOne w c) then
        ([⟨fresh, .shl, p, .constInt (exactLogBase2 (addOne w c))⟩,
          ⟨fresh + 1, .sub, .ref fresh, p⟩],
          some (.ref (fresh + 1)), fresh + 2)
      else ([], none, fresh)
  | .sdiv =>
    match I.op1 with
    | .constInt c =>
      if c = 1 then ([], some I.op0, fresh)
      else if isPow2 c then
        ([⟨fresh, .lshr, I.op0, .constInt (exactLogBase2 c)⟩],
          some (.ref fresh), fresh + 1)
      else ([], none, fresh)
    | _ => ([], none, fresh)
  | _ => ([], none, fresh)

/-- Number of Mul and SDiv instructions in a list; only those can cause
insertions in the first pass, which bounds the loop length. -/
def countMS (l : List Instr) : Nat :=
  (l.filter (fun J => J.opcode = Opcode.mul ∨ J.opcode = Opcode.sdiv)).length

/-- An upper bound on the number of iterations the first-pass cursor still
performs when `rest` is the part of the block at and after the cursor. -/
def algFuel (rest : List Instr) : Nat := 3 * countMS rest + rest.length

/-- The cursor loop of algebraicIdentity_stregthReduction (lines 42-122),
fuelled.  `acc` is the already-visited prefix in reverse, `rest` the
instructions at and after the cursor (newly inserted instructions are
spliced at its front, exactly as insertAfter places them right after the
current instruction, where the iterator visits them next), `ext` every
instruction of the enclosing function outside this block.
replaceAllUsesWith rewrites all three components.  The fuel never runs out
when started with algFuel rest (proved below); the 0-fuel branch returns
the state unconsumed. -/
def algLoopF (w : Nat) :
    Nat → List Instr → List Instr → List Instr → Nat →
    List Instr × List Instr × Nat
  | _, acc, [], ext, fresh => (acc.reverse, ext, fresh)
  | 0, acc, rest, ext, fresh => (acc.reverse ++ rest, ext, fresh)
  | fuel + 1, acc, I :: rest, ext, fresh =>
    match algInstrStep w fresh I with
    | (ins, none, fresh') => algLoopF w fuel (I :: acc) (ins ++ rest) ext fresh'
    | (ins, some v, fresh') =>
      algLoopF w fuel (rauwL I.id v (I :: acc)) (rauwL I.id v (ins ++ rest))
        (rauwL I.id v ext) fresh'

/-- The cursor loop started with sufficient fuel. -/
def algLoop (w : Nat) (acc rest ext : List Instr) (fresh : Nat) :
    List Instr × List Instr × Nat :=
  algLoopF w (algFuel rest) acc rest ext fresh

/-- LocalOpts.cpp lines 34-126, algebraicIdentity_stregthReduction on one
basic block: run the cursor loop from the block head; the source returns
true unconditionally (line 125). -/
def algebraicIdentity_stregthReduction (w : Nat) (B ext : List Instr)
    (fresh : Nat) : List Instr × List Instr × Nat × Bool :=
  match algLoop w [] B ext fresh with
  | (B', ext', fresh') => (B', ext', fresh', true)

/-- LocalOpts.cpp line 145: the opposite opcode of an Add is Sub and of
anything else (only ever called on Sub) is Add. -/
def oppositeOp (o : Opcode) : Opcode :=
  if o = Opcode.add then Opcode.sub else Opcode.add

/-- LocalOpts.cpp lines 148-164: the body of the user loop for a single
user, identified by its id (the use-list holds pointers; ids play that role
here).  The current operands of the user are consulted: if its opcode is the
opposite one, it classifies to a constant equal to the constant of the outer
instruction, then all its uses are replaced with the variable operand of the
outer instruction. -/
def multiUserStep (cVal : Nat) (opp : Opcode) (prm : Value)
    (S : List Instr) (uid : Nat) : List Instr :=
  match S.find? (fun J => J.id = uid) with
  | none => S
  | some U =>
    if U.opcode = opp then
      match getConstantFromInstruction U with
      | none => S
      | some (c2, _) => if cVal = c2 then rauwL uid prm S else S
    else S

/-- LocalOpts.cpp lines 136-164: processing of one cursor instruction of
multiInstructionOptimization.  Only Add and Sub instructions that classify
to (constant, variable) are considered; the users of the instruction (its
use-list at this moment, which replaceAllUsesWith on a user never alters)
are then each examined in turn.  S is every instruction of the enclosing
function. -/
def multiInstrStep (I : Instr) (S : List Instr) : List Instr :=
  if I.opcode = Opcode.add ∨ I.opcode = Opcode.sub then
    match getConstantFromInstruction I with
    | none => S
    | some (c, prm) =>
      let users := ((S.filter (fun J => 0 < usesIn I.id J)).map Instr.id)
      users.foldl (multiUserStep c (oppositeOp I.opcode) prm) S
  else S

/-- One advance of the multiInstructionOptimization cursor: process the
instruction at index k of S (the block occupies the first blockLen entries
of S) if it exists. -/
def multiStepAt (S : List Instr) (k : Nat) : List Instr :=
  match S[k]? with
  | none => S
  | some I => multiInstrStep I S

/-- LocalOpts.cpp lines 128-167, multiInstructionOptimization on one basic
block: the cursor walks the block (whose length this pass never changes)
by position; rewrites reach every instruction of the enclosing function.
The source returns true unconditionally (line 166). -/
def multiInstructionOptimization (B ext : List Instr) :
    List Instr × List Instr × Bool :=
  let S := (List.range B.length).foldl multiStepAt (B ++ ext)
  (S.take B.length, S.drop B.length, true)

/-- LocalOpts.cpp lines 175-186, the erase loop of deadCodeElimination:
`acc` is the surviving prefix in reverse, `rest` the instructions not yet
reached, `ext` the instructions of the enclosing function outside this
block (they can hold uses of block instructions, and survive untouched).
An instruction with zero uses that is a binary operator is erased
(eraseFromParent returns the iterator to the next instruction); otherwise
the cursor advances. -/
def dceLoop (acc rest ext : List Instr) : List Instr :=
  match rest with
  | [] => acc.reverse
  | I :: rest' =>
    if usesCount I.id (acc.reverse ++ (I :: rest') ++ ext) = 0 ∧ I.isBinaryOp then
      dceLoop acc rest' ext
    else
      dceLoop (I :: acc) rest' ext

/-- LocalOpts.cpp lines 173-189, deadCodeElimination on one basic block;
the source returns true unconditionally (line 188). -/
def deadCodeElimination (B ext : List Instr) : List Instr × Bool :=
  (dceLoop [] B ext, true)

/-- The per-block body of runOnFunction (LocalOpts.cpp lines 197-208): the
three transforms in their fixed order, each exactly once, with the changed
signals ORed. -/
def runOnBlock (w : Nat) (B ext : List Instr) (fresh : Nat) :
    List Instr × List Instr × Nat × Bool :=
  match algebraicIdentity_stregthReduction w B ext fresh with
  | (B1, ext1, fresh1, t1) =>
    match multiInstructionOptimization B1 ext1 with
    | (B2, ext2, t2) =>
      match deadCodeElimination B2 ext2 with
      | (B3, t3) => (B3, ext2, fresh1, t1 || t2 || t3)

/-- Regroup a flat list of instructions into blocks following the shape
(per-block lengths) of a reference list of blocks.  Used to scatter the
`ext` component back into the surrounding blocks; no transform ever changes
the length of an instruction list it only rewrites. -/
def reshape : List (List Instr) → List Instr → List (List Instr)
  | [], _ => []
  | b :: bs, l => l.take b.length :: reshape bs (l.drop b.length)

/-- The basic-block loop of runOnFunction (LocalOpts.cpp lines 196-208):
blocks are processed in order; while one block is transformed every other
block of the function is visible to it (flattened) as `ext`, and is put
back in place afterwards.  The counter n is the number of blocks still to
process (fixed up front: the pass never adds or removes blocks). -/
def runBlocksN (w : Nat) :
    Nat → List (List Instr) → List (List Instr) → Nat → Bool →
    List (List Instr) × Nat × Bool
  | 0, done, todo, fresh, tf => (done ++ todo, fresh, tf)
  | n + 1, done, todo, fresh, tf =>
    match todo with
    | [] => (done, fresh, tf)
    | B :: todo' =>
      let ext := done.flatten ++ todo'.flatten
      match runOnBlock w B ext fresh with
      | (B', ext', fresh', t) =>
        runBlocksN w n
          (reshape done ext' ++ [B'])
          (reshape todo' (ext'.drop done.flatten.length))
          fresh' (tf || t)

/-- LocalOpts.cpp lines 193-211, runOnFunction: run the three transforms on
each basic block in order, ORing the changed signals (each of which the
transforms yield as the literal true). -/
def runOnFunction (w : Nat) (F : List (List Instr)) (fresh : Nat) :
    List (List Instr) × Nat × Bool :=
  runBlocksN w F.length [] F fresh false

/-- LocalOpts.cpp lines 213-221, LocalOpts::run over a module: iterate the
functions; as soon as runOnFunction reports a change, return immediately
with PreservedAnalyses::none() (modelled as the boolean true), leaving the
remaining functions untouched; otherwise finish with
PreservedAnalyses::all() (false). -/
def run (w : Nat) (M : List (List (List Instr))) (fresh : Nat) :
    List (List (List Instr)) × Bool :=
  match M with
  | [] => ([], false)
  | F :: Fs =>
    match runOnFunction w F fresh with
    | (F', _, true) => (F' :: Fs, true)
    | (F', fresh', false) =>
      match run w Fs fresh' with
      | (Fs', t) => (F' :: Fs', t)

/-- Modelled from the spec: the IR model and its execution semantics are an
external collaborator (spec sections 2 and 3); instructions compute w-bit
integer values.  Interpret an unsigned w-bit value as a signed one. -/
def toSigned (w n : Nat) : Int :=
  if n < 2 ^ (w - 1) then (n : Int) else (n : Int) - 2 ^ w

/-- Modelled from the spec: reduce a signed result back to its unsigned
w-bit representative. -/
def toUnsigned (w : Nat) (i : Int) : Nat :=
  (i % ((2 ^ w : Nat) : Int)).toNat

/-- Modelled from the spec: the value computed by one opcode on two w-bit
operands.  add, sub, mul wrap modulo 2 ^ w; sdiv is signed division
truncating toward zero; shl is a left shift, lshr a logical (zero-filling)
right shift; an opaque instruction passes its first operand through. -/
def evalOp (w : Nat) (op : Opcode) (a b : Nat) : Nat :=
  match op with
  | .add => (a + b) % 2 ^ w
  | .sub => toUnsigned w ((a : Int) - (b : Int))
  | .mul => (a * b) % 2 ^ w
  | .sdiv => toUnsigned w (Int.tdiv (toSigned w a) (toSigned w b))
  | .shl => (a * 2 ^ b) % 2 ^ w
  | .lshr => (a % 2 ^ w) / 2 ^ b
  | .other _ => a % 2 ^ w

/-- Modelled from the spec: the value of an operand, given the environment
σ for external parameters and the values ρ already computed for earlier
instructions (an unassigned reference reads as 0). -/
def evalValue (w : Nat) (σ : Nat → Nat) (ρ : List (Nat × Nat)) : Value → Nat
  | .constInt c => c % 2 ^ w
  | .param n => σ n % 2 ^ w
  | .ref i =>
    match ρ.find? (fun e => e.1 = i) with
    | some e => e.2
    | none => 0

/-- Modelled from the spec: straight-line execution of a basic block,
assigning to the id of each instruction its computed value. -/
def evalBlock (w : Nat) (σ : Nat → Nat) : List Instr → List (Nat × Nat) →
    List (Nat × Nat)
  | [], ρ => ρ
  | I :: rest, ρ =>
    evalBlock w σ rest
      ((I.id, evalOp w I.opcode (evalValue w σ ρ I.op0) (evalValue w σ ρ I.op1)) :: ρ)

/-- Read the value computed for instruction i after execution. -/
def lookupVal (ρ : List (Nat × Nat)) (i : Nat) : Nat :=
  match ρ.find? (fun e => e.1 = i) with
  | some e => e.2
  | none => 0

/-- C1.  The claim says the unit-level result reports "transformed" if and
only if some rewrite actually changed a basic block, and in particular that
a unit in which no transform rewrites anything reports changed = false.
The code violates this: every transform returns true unconditionally
(LocalOpts.cpp lines 125, 166, 188), so on a module consisting of one
function with one block holding a single opaque instruction, nothing is
rewritten (the module comes back identical) yet LocalOpts::run reports
PreservedAnalyses::none(), i.e. changed = true. -/
theorem c1_changed_flag_always_set :
    run 8 [[[⟨0, .other 0, .param 0, .param 0⟩]]] 1 =
      ([[[⟨0, .other 0, .param 0, .param 0⟩]]], true) := by
  rfl

/-- C2.  The claim says the driver applies the three transforms to every
basic block of every function of the unit, no function skipped.  The code
violates this: LocalOpts::run (lines 216-218) returns as soon as
runOnFunction reports a change, and runOnFunction reports a change for any
function with at least one block, so on a module of two identical
one-block functions the second function comes back untouched even though
running the transforms on it would rewrite its mul instruction. -/
theorem c2_second_function_skipped :
    ((run 8 [[[⟨0, .mul, .param 0, .constInt 4⟩, ⟨1, .other 0, .ref 0, .ref 0⟩]],
              [[⟨0, .mul, .param 0, .constInt 4⟩, ⟨1, .other 0, .ref 0, .ref 0⟩]]] 2).1.getD 1 []
        = [[⟨0, .mul, .param 0, .constInt 4⟩, ⟨1, .other 0, .ref 0, .ref 0⟩]])
    ∧ (runOnFunction 8
          [[⟨0, .mul, .param 0, .constInt 4⟩, ⟨1, .other 0, .ref 0, .ref 0⟩]] 2).1
        ≠ [[⟨0, .mul, .param 0, .constInt 4⟩, ⟨1, .other 0, .ref 0, .ref 0⟩]] := by
  exact ⟨rfl, by decide⟩

/-- C9 counterexample.  The claim says that for the pair t = x + 5 followed
by y = t - 5, after the cancellation pass t becomes dead (zero uses) and is
then removed by the dead-code-elimination pass of the same pipeline
invocation.  On the block [t = x + 5, y = t - 5, z = opaque use of y] the
code behaves otherwise: after the first two passes t still has exactly one
use (y still names t as an operand, since cancellation only redirects the
consumers of y), and after the whole per-block pipeline t is still in the
block (the single DCE sweep passes t, which then still has a use, before
erasing y). -/
theorem c9_t_not_removed :
    usesCount 0
      ((multiInstructionOptimization
        ((algebraicIdentity_stregthReduction 8
          [⟨0, .add, .param 0, .constInt 5⟩, ⟨1, .sub, .ref 0, .constInt 5⟩,
           ⟨2, .other 0, .ref 1, .ref 1⟩] [] 3).1) []).1) = 1
    ∧ (runOnBlock 8
        [⟨0, .add, .param 0, .constInt 5⟩, ⟨1, .sub, .ref 0, .constInt 5⟩,
         ⟨2, .other 0, .ref 1, .ref 1⟩] [] 3).1.map Instr.id = [0, 2] := by
  exact ⟨rfl, rfl⟩

/-- C9 as amended.  For the block [t = x + 5, y = t - 5, z = opaque use of
y]: the cancellation pass redirects the consumers of y to x, so y (not t)
becomes dead; the DCE sweep then erases y; t keeps its use from y through
the cancellation step, and once y is erased the sweep has already passed t,
so t survives the pipeline with zero remaining uses. -/
theorem c9_amended_cancellation_pipeline :
    ((multiInstructionOptimization
        ((algebraicIdentity_stregthReduction 8
          [⟨0, .add, .param 0, .constInt 5⟩, ⟨1, .sub, .ref 0, .constInt 5⟩,
           ⟨2, .other 0, .ref 1, .ref 1⟩] [] 3).1) []).1
      = [⟨0, .add, .param 0, .constInt 5⟩, ⟨1, .sub, .ref 0, .constInt 5⟩,
         ⟨2, .other 0, .param 0, .param 0⟩])
    ∧ usesCount 1
        ((multiInstructionOptimization
          ((algebraicIdentity_stregthReduction 8
            [⟨0, .add, .param 0, .constInt 5⟩, ⟨1, .sub, .ref 0, .constInt 5⟩,
             ⟨2, .other 0, .ref 1, .ref 1⟩] [] 3).1) []).1) = 0
    ∧ (runOnBlock 8
        [⟨0, .add, .param 0, .constInt 5⟩, ⟨1, .sub, .ref 0, .constInt 5⟩,
         ⟨2, .other 0, .ref 1, .ref 1⟩] [] 3).1
      = [⟨0, .add, .param 0, .constInt 5⟩, ⟨2, .other 0, .param 0, .param 0⟩]
    ∧ usesCount 0
        ((runOnBlock 8
          [⟨0, .add, .param 0, .constInt 5⟩, ⟨1, .sub, .ref 0, .constInt 5⟩,
           ⟨2, .other 0, .ref 1, .ref 1⟩] [] 3).1) = 0 := by
  exact ⟨rfl, rfl, rfl, rfl⟩

/-- C10.  The cancellation transform checks only the opposite opcode and
equality of the classified constants: for I = x + 7 and U = 7 - I (the
constant is operand 0 of the Sub and I is the subtrahend), every use of U
is still replaced with x, although U computes 7 - (x + 7) = -x.  On the
block [I, U, z = opaque use of U] with x = 5 at width 8: the consumer z of U is
redirected to x, U originally computes the representation of -5, and the
observable value of z changes from 251 to 5. -/
theorem c10_cancellation_ignores_operand_slot :
    ((multiInstructionOptimization
        [⟨0, .add, .param 0, .constInt 7⟩, ⟨1, .sub, .constInt 7, .ref 0⟩,
         ⟨2, .other 0, .ref 1, .ref 1⟩] []).1
      = [⟨0, .add, .param 0, .constInt 7⟩, ⟨1, .sub, .constInt 7, .ref 0⟩,
         ⟨2, .other 0, .param 0, .param 0⟩])
    ∧ lookupVal (evalBlock 8 (fun _ => 5)
        [⟨0, .add, .param 0, .constInt 7⟩, ⟨1, .sub, .constInt 7, .ref 0⟩,
         ⟨2, .other 0, .ref 1, .ref 1⟩] []) 1 = toUnsigned 8 (-(5 : Int))
    ∧ lookupVal (evalBlock 8 (fun _ => 5)
        [⟨0, .add, .param 0, .constInt 7⟩, ⟨1, .sub, .constInt 7, .ref 0⟩,
         ⟨2, .other 0, .ref 1, .ref 1⟩] []) 2
      ≠ lookupVal (evalBlock 8 (fun _ => 5)
          ((multiInstructionOptimization
            [⟨0, .add, .param 0, .constInt 7⟩, ⟨1, .sub, .constInt 7, .ref 0⟩,
             ⟨2, .other 0, .ref 1, .ref 1⟩] []).1) []) 2 := by
  exact ⟨rfl, rfl, by decide⟩

/-- C3 counterexample.  The claim says the optimizer preserves observable
semantics on every well-formed unit.  It does not: signed division by a
power of two is rewritten to a logical right shift (LocalOpts.cpp lines
110-115), which is wrong for negative dividends.  On the unit with the one
block [d = x sdiv 2, z = opaque use of d] at width 8 and x = 252 (the
representation of -4), the original unit gives z the value 254
(representing -2) while the optimized unit computes 252 lshr 1 = 126. -/
theorem c3_sdiv_semantics_changed :
    ((run 8 [[[⟨0, .sdiv, .param 0, .constInt 2⟩, ⟨1, .other 0, .ref 0, .ref 0⟩]]] 2).1
      = [[[⟨2, .lshr, .param 0, .constInt 1⟩, ⟨1, .other 0, .ref 2, .ref 2⟩]]])
    ∧ lookupVal (evalBlock 8 (fun _ => 252)
        [⟨0, .sdiv, .param 0, .constInt 2⟩, ⟨1, .other 0, .ref 0, .ref 0⟩] []) 1 = 254
    ∧ lookupVal (evalBlock 8 (fun _ => 252)
        [⟨2, .lshr, .param 0, .constInt 1⟩, ⟨1, .other 0, .ref 2, .ref 2⟩] []) 1 = 126 := by
  exact ⟨rfl, by decide, by decide⟩

theorem usesCount_nil (i : Nat) : usesCount i [] = 0 := rfl

theorem usesCount_cons (i : Nat) (J : Instr) (l : List Instr) :
    usesCount i (J :: l) = usesIn i J + usesCount i l := by
  simp [usesCount]

theorem usesCount_append (i : Nat) (a b : List Instr) :
    usesCount i (a ++ b) = usesCount i a + usesCount i b := by
  simp [usesCount]

theorem usesCount_reverse (i : Nat) (l : List Instr) :
    usesCount i l.reverse = usesCount i l := by
  simp [usesCount, List.sum_reverse]

theorem usesIn_eq_zero (i : Nat) (J : Instr) :
    usesIn i J = 0 ↔ J.op0 ≠ Value.ref i ∧ J.op1 ≠ Value.ref i := by
  unfold usesIn
  by_cases h0 : J.op0 = Value.ref i <;> by_cases h1 : J.op1 = Value.ref i <;>
    simp [h0, h1]

theorem usesCount_eq_zero (i : Nat) (l : List Instr) :
    usesCount i l = 0 ↔ ∀ J ∈ l, usesIn i J = 0 := by
  induction l with
  | nil => simp [usesCount_nil]
  | cons J l ih => simp [usesCount_cons, ih]

theorem rauwV_ne_ref (i : Nat) (v : Value) (h : v ≠ Value.ref i) (x : Value) :
    rauwV i v x ≠ Value.ref i := by
  unfold rauwV
  cases x with
  | ref j =>
    by_cases hj : j = i
    · simpa [hj] using h
    · simp [hj]
  | constInt c => simp
  | param n => simp

theorem usesIn_rauwI_self (i : Nat) (v : Value) (h : v ≠ Value.ref i) (J : Instr) :
    usesIn i (rauwI i v J) = 0 := by
  rw [usesIn_eq_zero]
  exact ⟨rauwV_ne_ref i v h J.op0, rauwV_ne_ref i v h J.op1⟩

theorem usesCount_rauwL_self (i : Nat) (v : Value) (h : v ≠ Value.ref i)
    (l : List Instr) : usesCount i (rauwL i v l) = 0 := by
  rw [usesCount_eq_zero]
  intro J hJ
  rcases List.mem_map.mp hJ with ⟨K, _, rfl⟩
  exact usesIn_rauwI_self i v h K

theorem rauwV_preserve_ne (i j : Nat) (v x : Value) (h0 : x ≠ Value.ref i)
    (h : v ≠ Value.ref i) : rauwV j v x ≠ Value.ref i := by
  unfold rauwV
  cases x with
  | ref m =>
    by_cases hm : m = j
    · simpa [hm] using h
    · simpa [hm] using h0
  | constInt c => simp
  | param n => simp

theorem usesIn_rauwI_zero (i j : Nat) (v : Value) (J : Instr)
    (h0 : usesIn i J = 0) (h : v ≠ Value.ref i) :
    usesIn i (rauwI j v J) = 0 := by
  rw [usesIn_eq_zero] at h0 ⊢
  exact ⟨rauwV_preserve_ne i j v J.op0 h0.1 h, rauwV_preserve_ne i j v J.op1 h0.2 h⟩

theorem usesCount_rauwL_zero (i j : Nat) (v : Value) (l : List Instr)
    (h0 : usesCount i l = 0) (h : v ≠ Value.ref i) :
    usesCount i (rauwL j v l) = 0 := by
  rw [usesCount_eq_zero] at h0 ⊢
  intro J hJ
  rcases List.mem_map.mp hJ with ⟨K, hK, rfl⟩
  exact usesIn_rauwI_zero i j v K (h0 K hK) h

theorem rauwL_length (i : Nat) (v : Value) (l : List Instr) :
    (rauwL i v l).length = l.length := by
  simp [rauwL]

theorem rauwI_id (i : Nat) (v : Value) (J : Instr) : (rauwI i v J).id = J.id := rfl

theorem rauwI_opcode (i : Nat) (v : Value) (J : Instr) :
    (rauwI i v J).opcode = J.opcode := rfl

theorem countMS_cons (J : Instr) (l : List Instr) :
    countMS (J :: l) =
      (if J.opcode = Opcode.mul ∨ J.opcode = Opcode.sdiv then 1 else 0) + countMS l := by
  unfold countMS
  split
  · simp_all [List.filter_cons]
    omega
  · simp_all [List.filter_cons]

theorem countMS_append (a b : List Instr) :
    countMS (a ++ b) = countMS a + countMS b := by
  simp [countMS]

theorem countMS_rauwL (i : Nat) (v : Value) (l : List Instr) :
    countMS (rauwL i v l) = countMS l := by
  induction l with
  | nil => rfl
  | cons J l ih =>
    show countMS (rauwI i v J :: rauwL i v l) = _
    rw [countMS_cons, countMS_cons, ih, rauwI_opcode]

theorem algFuel_rauwL (i : Nat) (v : Value) (l : List Instr) :
    algFuel (rauwL i v l) = algFuel l := by
  unfold algFuel
  rw [countMS_rauwL, rauwL_length]

theorem getConstant_param (I : Instr) (c : Nat) (p : Value)
    (h : getConstantFromInstruction I = some (c, p)) :
    p = I.op0 ∨ p = I.op1 := by
  unfold getConstantFromInstruction at h
  cases h0 : I.op0 <;> cases h1 : I.op1 <;> simp_all

theorem algInstrStep_fresh_le (w fresh : Nat) (I : Instr) :
    fresh ≤ (algInstrStep w fresh I).2.2 := by
  unfold algInstrStep
  repeat' split
  all_goals simp

theorem algInstrStep_ins_facts (w fresh : Nat) (I : Instr) :
    countMS (algInstrStep w fresh I).1 = 0 ∧ (algInstrStep w fresh I).1.length ≤ 2 := by
  unfold algInstrStep
  repeat' split
  all_goals simp [countMS]

theorem algInstrStep_ins_nil (w fresh : Nat) (I : Instr)
    (h : ¬(I.opcode = Opcode.mul ∨ I.opcode = Opcode.sdiv)) :
    (algInstrStep w fresh I).1 = [] := by
  unfold algInstrStep
  cases hop : I.opcode with
  | mul => exact absurd (Or.inl hop) h
  | sdiv => exact absurd (Or.inr hop) h
  | add =>
    repeat' split
    all_goals simp_all
  | sub => rfl
  | shl => rfl
  | lshr => rfl
  | other t => rfl

theorem algInstrStep_noRef (w fresh i : Nat) (I : Instr)
    (hI : usesIn i I = 0) (hif : i < fresh) :
    (∀ J ∈ (algInstrStep w fresh I).1, usesIn i J = 0)
    ∧ (∀ v, (algInstrStep w fresh I).2.1 = some v → v ≠ Value.ref i) := by
  rw [usesIn_eq_zero] at hI
  obtain ⟨h0, h1⟩ := hI
  have hfi : ¬(fresh = i) := by omega
  have hfi1 : ¬(fresh + 1 = i) := by omega
  unfold algInstrStep
  cases hop : I.opcode with
  | add =>
    cases hg : getConstantFromInstruction I with
    | none => simp
    | some cp =>
      obtain ⟨c, p⟩ := cp
      have hp := getConstant_param I c p hg
      by_cases hc : c = 0 <;> rcases hp with hp | hp <;>
        simp_all [usesIn_eq_zero]
  | mul =>
    cases hg : getConstantFromInstruction I with
    | none => simp
    | some cp =>
      obtain ⟨c, p⟩ := cp
      have hp := getConstant_param I c p hg
      by_cases hc1 : c = 1 <;> by_cases hc2 : isPow2 c = true <;>
        by_cases hc3 : isPow2 (subOne w c) = true <;>
        by_cases hc4 : isPow2 (addOne w c) = true <;>
        rcases hp with hp | hp <;>
        simp_all [usesIn_eq_zero]
  | sdiv =>
    cases hv1 : I.op1 with
    | constInt c =>
      by_cases hc1 : c = 1 <;> by_cases hc2 : isPow2 c = true <;>
        simp_all [usesIn_eq_zero]
    | ref j => simp
    | param n => simp
  | sub => simp
  | shl => simp
  | lshr => simp
  | other t => simp

theorem algFuel_step_le (w fresh : Nat) (I : Instr) (rest' : List Instr) :
    algFuel ((algInstrStep w fresh I).1 ++ rest') + 1 ≤ algFuel (I :: rest') := by
  have h1 := algInstrStep_ins_facts w fresh I
  unfold algFuel
  rw [countMS_append, countMS_cons, List.length_append, List.length_cons, h1.1]
  by_cases hms : I.opcode = Opcode.mul ∨ I.opcode = Opcode.sdiv
  · have := h1.2
    rw [if_pos hms]
    omega
  · rw [algInstrStep_ins_nil w fresh I hms, if_neg hms]
    simp only [List.length_nil]
    omega

theorem algLoopF_irrel (w : Nat) :
    ∀ f g acc rest ext fresh, algFuel rest ≤ f → algFuel rest ≤ g →
      algLoopF w f acc rest ext fresh = algLoopF w g acc rest ext fresh := by
  intro f
  induction f with
  | zero =>
    intro g acc rest ext fresh h1 h2
    have hr : rest = [] := by
      cases rest with
      | nil => rfl
      | cons I r =>
        exfalso
        unfold algFuel at h1
        rw [List.length_cons] at h1
        omega
    subst hr
    cases g <;> rfl
  | succ f ih =>
    intro g acc rest ext fresh h1 h2
    cases rest with
    | nil => cases g <;> rfl
    | cons I rest' =>
      have hge1 : 1 ≤ algFuel (I :: rest') := by
        unfold algFuel
        rw [List.length_cons]
        omega
      cases g with
      | zero => omega
      | succ g' =>
        have hstep := algFuel_step_le w fresh I rest'
        simp only [algLoopF]
        cases hs : algInstrStep w fresh I with
        | mk ins r2 =>
          obtain ⟨v?, f'⟩ := r2
          rw [hs] at hstep
          simp only [Prod.fst] at hstep
          cases v? with
          | none =>
            exact ih g' (I :: acc) (ins ++ rest') ext f' (by omega) (by omega)
          | some v =>
            have heq : algFuel (rauwL I.id v (ins ++ rest')) = algFuel (ins ++ rest') :=
              algFuel_rauwL I.id v (ins ++ rest')
            exact ih g' (rauwL I.id v (I :: acc)) (rauwL I.id v (ins ++ rest'))
              (rauwL I.id v ext) f' (by omega) (by omega)

theorem algLoop_nil (w : Nat) (acc ext : List Instr) (fresh : Nat) :
    algLoop w acc [] ext fresh = (acc.reverse, ext, fresh) := rfl

theorem algLoop_cons_none (w fresh f' : Nat) (I : Instr)
    (acc rest' ext ins : List Instr)
    (h : algInstrStep w fresh I = (ins, none, f')) :
    algLoop w acc (I :: rest') ext fresh =
      algLoop w (I :: acc) (ins ++ rest') ext f' := by
  unfold algLoop
  have hstep := algFuel_step_le w fresh I rest'
  rw [h] at hstep
  simp only [Prod.fst] at hstep
  cases hn : algFuel (I :: rest') with
  | zero => omega
  | succ n =>
    simp only [algLoopF]
    rw [h]
    exact algLoopF_irrel w n (algFuel (ins ++ rest')) (I :: acc) (ins ++ rest')
      ext f' (by omega) (by omega)

theorem algLoop_cons_some (w fresh f' : Nat) (I : Instr) (v : Value)
    (acc rest' ext ins : List Instr)
    (h : algInstrStep w fresh I = (ins, some v, f')) :
    algLoop w acc (I :: rest') ext fresh =
      algLoop w (rauwL I.id v (I :: acc)) (rauwL I.id v (ins ++ rest'))
        (rauwL I.id v ext) f' := by
  unfold algLoop
  have hstep := algFuel_step_le w fresh I rest'
  rw [h] at hstep
  simp only [Prod.fst] at hstep
  have heq : algFuel (rauwL I.id v (ins ++ rest')) = algFuel (ins ++ rest') :=
    algFuel_rauwL I.id v (ins ++ rest')
  cases hn : algFuel (I :: rest') with
  | zero => omega
  | succ n =>
    simp only [algLoopF]
    rw [h]
    exact algLoopF_irrel w n (algFuel (rauwL I.id v (ins ++ rest')))
      (rauwL I.id v (I :: acc)) (rauwL I.id v (ins ++ rest'))
      (rauwL I.id v ext) f' (by omega) (by omega)

theorem algLoopF_noRef (w i : Nat) :
    ∀ fuel acc rest ext fresh, i < fresh →
      usesCount i acc = 0 → usesCount i rest = 0 → usesCount i ext = 0 →
      usesCount i (algLoopF w fuel acc rest ext fresh).1 = 0 ∧
      usesCount i (algLoopF w fuel acc rest ext fresh).2.1 = 0 := by
  intro fuel
  induction fuel with
  | zero =>
    intro acc rest ext fresh hlt hacc hrest hext
    cases rest with
    | nil =>
      simp only [algLoopF]
      rw [usesCount_reverse]
      exact ⟨hacc, hext⟩
    | cons I rest' =>
      simp only [algLoopF]
      rw [usesCount_append, usesCount_reverse]
      constructor
      · omega
      · exact hext
  | succ fuel ih =>
    intro acc rest ext fresh hlt hacc hrest hext
    cases rest with
    | nil =>
      simp only [algLoopF]
      rw [usesCount_reverse]
      exact ⟨hacc, hext⟩
    | cons I rest' =>
      rw [usesCount_cons] at hrest
      have hIuse : usesIn i I = 0 := by omega
      have hrest' : usesCount i rest' = 0 := by omega
      have hnr := algInstrStep_noRef w fresh i I hIuse hlt
      have hfr := algInstrStep_fresh_le w fresh I
      simp only [algLoopF]
      cases hs : algInstrStep w fresh I with
      | mk ins r2 =>
        obtain ⟨v?, f'⟩ := r2
        rw [hs] at hnr hfr
        simp only [Prod.fst, Prod.snd] at hnr hfr
        have hins : usesCount i ins = 0 :=
          (usesCount_eq_zero i ins).mpr hnr.1
        cases v? with
        | none =>
          apply ih
          · omega
          · rw [usesCount_cons]
            omega
          · rw [usesCount_append]
            omega
          · exact hext
        | some v =>
          have hv : v ≠ Value.ref i := hnr.2 v rfl
          apply ih
          · omega
          · apply usesCount_rauwL_zero
            · rw [usesCount_cons]
              omega
            · exact hv
          · apply usesCount_rauwL_zero
            · rw [usesCount_append]
              omega
            · exact hv
          · exact usesCount_rauwL_zero i I.id v ext hext hv

theorem algLoopF_shape (w : Nat) :
    ∀ fuel acc rest ext fresh, ∃ (σ : Instr → Instr) (tail : List Instr),
      (algLoopF w fuel acc rest ext fresh).1 = acc.reverse.map σ ++ tail ∧
      (∀ J, (σ J).id = J.id) ∧ (∀ J, (σ J).opcode = J.opcode) ∧
      (∀ J c, J.op1 = Value.constInt c → (σ J).op1 = Value.constInt c) := by
  intro fuel
  induction fuel with
  | zero =>
    intro acc rest ext fresh
    refine ⟨id, rest, ?_, by simp, by simp, by simp⟩
    cases rest with
    | nil => simp [algLoopF]
    | cons I rest' => simp [algLoopF]
  | succ fuel ih =>
    intro acc rest ext fresh
    cases rest with
    | nil =>
      exact ⟨id, [], by simp [algLoopF], by simp, by simp, by simp⟩
    | cons I rest' =>
      simp only [algLoopF]
      cases hs : algInstrStep w fresh I with
      | mk ins r2 =>
        obtain ⟨v?, f'⟩ := r2
        cases v? with
        | none =>
          obtain ⟨σ, tail, heq, hid, hop, hconst⟩ :=
            ih (I :: acc) (ins ++ rest') ext f'
          refine ⟨σ, σ I :: tail, ?_, hid, hop, hconst⟩
          rw [heq, List.reverse_cons, List.map_append]
          simp
        | some v =>
          obtain ⟨σ, tail, heq, hid, hop, hconst⟩ :=
            ih (rauwL I.id v (I :: acc)) (rauwL I.id v (ins ++ rest'))
              (rauwL I.id v ext) f'
          refine ⟨σ ∘ rauwI I.id v, σ (rauwI I.id v I) :: tail, ?_, ?_, ?_, ?_⟩
          · rw [heq]
            show (List.map (rauwI I.id v) (I :: acc)).reverse.map σ ++ tail = _
            simp [Function.comp, List.reverse_cons]
          · intro J
            rw [Function.comp_apply, hid, rauwI_id]
          · intro J
            rw [Function.comp_apply, hop, rauwI_opcode]
          · intro J c hc
            apply hconst
            show (rauwI I.id v J).op1 = Value.constInt c
            unfold rauwI rauwV
            simp [hc]

theorem rauwV_eq_self (i : Nat) (v x : Value) (h : x ≠ Value.ref i) :
    rauwV i v x = x := by
  unfold rauwV
  cases x with
  | ref j =>
    have hj : ¬(j = i) := by simp_all
    simp [hj]
  | constInt c => rfl
  | param n => rfl

theorem rauwI_eq_self (i : Nat) (v : Value) (J : Instr) (h : usesIn i J = 0) :
    rauwI i v J = J := by
  rw [usesIn_eq_zero] at h
  unfold rauwI
  rw [rauwV_eq_self i v J.op0 h.1, rauwV_eq_self i v J.op1 h.2]

theorem getConstant_none (I : Instr) (h0 : I.op0.isConst = false)
    (h1 : I.op1.isConst = false) : getConstantFromInstruction I = none := by
  unfold getConstantFromInstruction
  cases g0 : I.op0 <;> cases g1 : I.op1 <;> simp_all [Value.isConst]

theorem algInstrStep_skip (w fresh : Nat) (I : Instr)
    (h : I.opcode = Opcode.sub ∨ I.opcode = Opcode.shl ∨
      I.opcode = Opcode.lshr ∨ (∃ t, I.opcode = Opcode.other t)) :
    algInstrStep w fresh I = ([], none, fresh) := by
  unfold algInstrStep
  rcases h with h | h | h | ⟨t, h⟩ <;> rw [h]

theorem algInstrStep_add_none (w fresh : Nat) (I : Instr)
    (hop : I.opcode = Opcode.add)
    (hg : getConstantFromInstruction I = none) :
    algInstrStep w fresh I = ([], none, fresh) := by
  unfold algInstrStep
  rw [hop, hg]

theorem algInstrStep_mul (w fresh c : Nat) (I : Instr) (x : Value)
    (hop : I.opcode = Opcode.mul)
    (hcl : getConstantFromInstruction I = some (c, x)) :
    algInstrStep w fresh I =
      if c = 1 then ([], some x, fresh)
      else if isPow2 c then
        ([⟨fresh, Opcode.shl, x, Value.constInt (exactLogBase2 c)⟩],
          some (Value.ref fresh), fresh + 1)
      else if isPow2 (subOne w c) then
        ([⟨fresh, Opcode.shl, x, Value.constInt (exactLogBase2 (subOne w c))⟩,
          ⟨fresh + 1, Opcode.add, Value.ref fresh, x⟩],
          some (Value.ref (fresh + 1)), fresh + 2)
      else if isPow2 (addOne w c) then
        ([⟨fresh, Opcode.shl, x, Value.constInt (exactLogBase2 (addOne w c))⟩,
          ⟨fresh + 1, Opcode.sub, Value.ref fresh, x⟩],
          some (Value.ref (fresh + 1)), fresh + 2)
      else ([], none, fresh) := by
  unfold algInstrStep
  rw [hop, hcl]

theorem algInstrStep_sdiv (w fresh c : Nat) (I : Instr)
    (hop : I.opcode = Opcode.sdiv)
    (hc : I.op1 = Value.constInt c) :
    algInstrStep w fresh I =
      if c = 1 then ([], some I.op0, fresh)
      else if isPow2 c then
        ([⟨fresh, Opcode.lshr, I.op0, Value.constInt (exactLogBase2 c)⟩],
          some (Value.ref fresh), fresh + 1)
      else ([], none, fresh) := by
  unfold algInstrStep
  rw [hop, hc]

theorem algInstrStep_add (w fresh c : Nat) (I : Instr) (x : Value)
    (hop : I.opcode = Opcode.add)
    (hcl : getConstantFromInstruction I = some (c, x)) :
    algInstrStep w fresh I =
      if c = 0 then ([], some x, fresh) else ([], none, fresh) := by
  unfold algInstrStep
  rw [hop, hcl]

theorem algLoop_noRef (w i : Nat) (acc rest ext : List Instr) (fresh : Nat)
    (hlt : i < fresh) (h1 : usesCount i acc = 0) (h2 : usesCount i rest = 0)
    (h3 : usesCount i ext = 0) :
    usesCount i (algLoop w acc rest ext fresh).1 = 0 ∧
    usesCount i (algLoop w acc rest ext fresh).2.1 = 0 :=
  algLoopF_noRef w i (algFuel rest) acc rest ext fresh hlt h1 h2 h3

theorem algLoop_shape (w : Nat) (acc rest ext : List Instr) (fresh : Nat) :
    ∃ (σ : Instr → Instr) (tail : List Instr),
      (algLoop w acc rest ext fresh).1 = acc.reverse.map σ ++ tail ∧
      (∀ J, (σ J).id = J.id) ∧ (∀ J, (σ J).opcode = J.opcode) ∧
      (∀ J c, J.op1 = Value.constInt c → (σ J).op1 = Value.constInt c) :=
  algLoopF_shape w (algFuel rest) acc rest ext fresh

/-- C8.  For an Add instruction at the cursor of the first pass whose
classification yields constant 0 and variable x, every use of the add is
replaced with x (the whole scope - visited prefix, remainder of the block
and the rest of the function - undergoes replaceAllUsesWith of the add by
x, and nothing is inserted), the add keeps zero remaining uses to the end
of the pass while itself surviving in the block; an Add classified with a
non-zero constant, or one with no constant operand, is not rewritten. -/
theorem c8_add_zero_identity (w fresh : Nat) (I : Instr)
    (acc rest ext : List Instr)
    (hop : I.opcode = Opcode.add)
    (hlt : I.id < fresh)
    (hself : usesIn I.id I = 0) :
    (∀ x, getConstantFromInstruction I = some (0, x) →
      algLoop w acc (I :: rest) ext fresh =
        algLoop w (rauwL I.id x (I :: acc)) (rauwL I.id x rest)
          (rauwL I.id x ext) fresh
      ∧ usesCount I.id (algLoop w acc (I :: rest) ext fresh).1 = 0
      ∧ usesCount I.id (algLoop w acc (I :: rest) ext fresh).2.1 = 0
      ∧ (∃ pre I' suf, (algLoop w acc (I :: rest) ext fresh).1 = pre ++ I' :: suf
          ∧ I'.id = I.id ∧ I'.opcode = Opcode.add))
    ∧ (∀ c x, getConstantFromInstruction I = some (c, x) → c ≠ 0 →
      algLoop w acc (I :: rest) ext fresh = algLoop w (I :: acc) rest ext fresh)
    ∧ (getConstantFromInstruction I = none →
      algLoop w acc (I :: rest) ext fresh = algLoop w (I :: acc) rest ext fresh) := by
  refine ⟨?_, ?_, ?_⟩
  · intro x hcl
    have hs : algInstrStep w fresh I = ([], some x, fresh) := by
      rw [algInstrStep_add w fresh 0 I x hop hcl]
      simp
    have heq := algLoop_cons_some w fresh fresh I x acc rest ext [] hs
    rw [List.nil_append] at heq
    have hxne : x ≠ Value.ref I.id := by
      rw [usesIn_eq_zero] at hself
      rcases getConstant_param I 0 x hcl with hx | hx
      · rw [hx]; exact hself.1
      · rw [hx]; exact hself.2
    have hnr := algLoop_noRef w I.id (rauwL I.id x (I :: acc)) (rauwL I.id x rest)
      (rauwL I.id x ext) fresh hlt
      (usesCount_rauwL_self I.id x hxne (I :: acc))
      (usesCount_rauwL_self I.id x hxne rest)
      (usesCount_rauwL_self I.id x hxne ext)
    refine ⟨heq, ?_, ?_, ?_⟩
    · rw [heq]; exact hnr.1
    · rw [heq]; exact hnr.2
    · rw [heq]
      obtain ⟨σ, tail, hsh, hid, hopc, _⟩ := algLoop_shape w
        (rauwL I.id x (I :: acc)) (rauwL I.id x rest) (rauwL I.id x ext) fresh
      refine ⟨(rauwL I.id x acc).reverse.map σ, σ (rauwI I.id x I), tail, ?_, ?_, ?_⟩
      · rw [hsh]
        show ((rauwI I.id x I :: rauwL I.id x acc).reverse).map σ ++ tail = _
        simp [List.reverse_cons]
      · rw [hid, rauwI_id]
      · rw [hopc, rauwI_opcode, hop]
  · intro c x hcl hc
    have hs : algInstrStep w fresh I = ([], none, fresh) := by
      rw [algInstrStep_add w fresh c I x hop hcl, if_neg hc]
    have heq := algLoop_cons_none w fresh fresh I acc rest ext [] hs
    rwa [List.nil_append] at heq
  · intro hg
    have hs : algInstrStep w fresh I = ([], none, fresh) :=
      algInstrStep_add_none w fresh I hop hg
    have heq := algLoop_cons_none w fresh fresh I acc rest ext [] hs
    rwa [List.nil_append] at heq

/-- Witness for C8 at the concrete block [t = x + 0, z = opaque use of t]:
after the first pass t has no remaining uses. -/
theorem c8_add_zero_identity_witness :
    usesCount 0 ((algLoop 8 []
      [⟨0, .add, .param 0, .constInt 0⟩, ⟨1, .other 0, .ref 0, .ref 0⟩] [] 2).1) = 0 :=
  ((c8_add_zero_identity 8 2 ⟨0, .add, .param 0, .constInt 0⟩ []
      [⟨1, .other 0, .ref 0, .ref 0⟩] [] rfl (by decide) rfl).1
    (.param 0) rfl).2.1

/-- The mul case where the classified constant minus one is a power of
two: a shift and an add are inserted after the instruction, which is
replaced everywhere by the add, keeps zero uses to the end of the pass and
survives with the two insertions immediately after it. -/
theorem c4_subOne_case (w fresh c : Nat) (I : Instr) (x : Value)
    (acc rest ext : List Instr)
    (hop : I.opcode = Opcode.mul)
    (hcl : getConstantFromInstruction I = some (c, x))
    (hx : x.isConst = false)
    (hlt : I.id < fresh)
    (hself : usesIn I.id I = 0)
    (hxne : x ≠ Value.ref I.id)
    (hc1 : c ≠ 1) (hc2 : isPow2 c = false) (hc3 : isPow2 (subOne w c) = true) :
    algLoop w acc (I :: rest) ext fresh =
      algLoop w (rauwL I.id (Value.ref (fresh + 1)) (I :: acc))
        (⟨fresh, Opcode.shl, x, Value.constInt (exactLogBase2 (subOne w c))⟩ ::
          ⟨fresh + 1, Opcode.add, Value.ref fresh, x⟩ ::
          rauwL I.id (Value.ref (fresh + 1)) rest)
        (rauwL I.id (Value.ref (fresh + 1)) ext) (fresh + 2)
    ∧ usesCount I.id (algLoop w acc (I :: rest) ext fresh).1 = 0
    ∧ usesCount I.id (algLoop w acc (I :: rest) ext fresh).2.1 = 0
    ∧ (∃ pre I' S' A' suf,
        (algLoop w acc (I :: rest) ext fresh).1 = pre ++ I' :: S' :: A' :: suf
        ∧ I'.id = I.id ∧ I'.opcode = Opcode.mul
        ∧ S'.id = fresh ∧ S'.opcode = Opcode.shl
        ∧ S'.op1 = Value.constInt (exactLogBase2 (subOne w c))
        ∧ A'.id = fresh + 1 ∧ A'.opcode = Opcode.add) := by
  have hvne : Value.ref (fresh + 1) ≠ Value.ref I.id := by
    simp only [ne_eq, Value.ref.injEq]
    omega
  have hs : algInstrStep w fresh I =
      ([⟨fresh, Opcode.shl, x, Value.constInt (exactLogBase2 (subOne w c))⟩,
        ⟨fresh + 1, Opcode.add, Value.ref fresh, x⟩],
        some (Value.ref (fresh + 1)), fresh + 2) := by
    rw [algInstrStep_mul w fresh c I x hop hcl, if_neg hc1,
      if_neg (by simp [hc2]), if_pos hc3]
  have hshluse : usesIn I.id (⟨fresh, Opcode.shl, x,
      Value.constInt (exactLogBase2 (subOne w c))⟩ : Instr) = 0 := by
    rw [usesIn_eq_zero]
    exact ⟨hxne, by simp⟩
  have hadduse : usesIn I.id (⟨fresh + 1, Opcode.add, Value.ref fresh, x⟩ : Instr) = 0 := by
    rw [usesIn_eq_zero]
    refine ⟨?_, hxne⟩
    simp only [ne_eq, Value.ref.injEq]
    omega
  have heq := algLoop_cons_some w fresh (fresh + 2) I (Value.ref (fresh + 1))
    acc rest ext
    [⟨fresh, Opcode.shl, x, Value.constInt (exactLogBase2 (subOne w c))⟩,
      ⟨fresh + 1, Opcode.add, Value.ref fresh, x⟩] hs
  have hins : rauwL I.id (Value.ref (fresh + 1))
      ([⟨fresh, Opcode.shl, x, Value.constInt (exactLogBase2 (subOne w c))⟩,
        ⟨fresh + 1, Opcode.add, Value.ref fresh, x⟩] ++ rest) =
      (⟨fresh, Opcode.shl, x, Value.constInt (exactLogBase2 (subOne w c))⟩ : Instr) ::
        (⟨fresh + 1, Opcode.add, Value.ref fresh, x⟩ : Instr) ::
        rauwL I.id (Value.ref (fresh + 1)) rest := by
    rw [List.cons_append, List.singleton_append]
    show rauwI I.id _ _ :: rauwI I.id _ _ :: _ = _
    rw [rauwI_eq_self I.id _ _ hshluse, rauwI_eq_self I.id _ _ hadduse]
    rfl
  rw [hins] at heq
  have hnracc : usesCount I.id
      (rauwL I.id (Value.ref (fresh + 1)) (I :: acc)) = 0 :=
    usesCount_rauwL_self I.id _ hvne (I :: acc)
  have hnrrest : usesCount I.id
      ((⟨fresh, Opcode.shl, x, Value.constInt (exactLogBase2 (subOne w c))⟩ : Instr) ::
        (⟨fresh + 1, Opcode.add, Value.ref fresh, x⟩ : Instr) ::
        rauwL I.id (Value.ref (fresh + 1)) rest) = 0 := by
    rw [usesCount_cons, usesCount_cons, hshluse, hadduse,
      usesCount_rauwL_self I.id _ hvne rest]
  have hnr := algLoop_noRef w I.id
    (rauwL I.id (Value.ref (fresh + 1)) (I :: acc))
    ((⟨fresh, Opcode.shl, x, Value.constInt (exactLogBase2 (subOne w c))⟩ : Instr) ::
      (⟨fresh + 1, Opcode.add, Value.ref fresh, x⟩ : Instr) ::
      rauwL I.id (Value.ref (fresh + 1)) rest)
    (rauwL I.id (Value.ref (fresh + 1)) ext) (fresh + 2) (by omega)
    hnracc hnrrest (usesCount_rauwL_self I.id _ hvne ext)
  refine ⟨heq, by rw [heq]; exact hnr.1, by rw [heq]; exact hnr.2, ?_⟩
  rw [heq]
  have hs2 : algInstrStep w (fresh + 2)
      (⟨fresh, Opcode.shl, x, Value.constInt (exactLogBase2 (subOne w c))⟩ : Instr) =
      ([], none, fresh + 2) :=
    algInstrStep_skip w (fresh + 2) _ (Or.inr (Or.inl rfl))
  have heq2 := algLoop_cons_none w (fresh + 2) (fresh + 2)
    (⟨fresh, Opcode.shl, x, Value.constInt (exactLogBase2 (subOne w c))⟩ : Instr)
    (rauwL I.id (Value.ref (fresh + 1)) (I :: acc))
    ((⟨fresh + 1, Opcode.add, Value.ref fresh, x⟩ : Instr) ::
      rauwL I.id (Value.ref (fresh + 1)) rest)
    (rauwL I.id (Value.ref (fresh + 1)) ext) [] hs2
  rw [List.nil_append] at heq2
  rw [heq2]
  have hs3 : algInstrStep w (fresh + 2)
      (⟨fresh + 1, Opcode.add, Value.ref fresh, x⟩ : Instr) =
      ([], none, fresh + 2) := by
    apply algInstrStep_add_none w (fresh + 2) _ rfl
    exact getConstant_none _ rfl hx
  have heq3 := algLoop_cons_none w (fresh + 2) (fresh + 2)
    (⟨fresh + 1, Opcode.add, Value.ref fresh, x⟩ : Instr)
    ((⟨fresh, Opcode.shl, x, Value.constInt (exactLogBase2 (subOne w c))⟩ : Instr) ::
      rauwL I.id (Value.ref (fresh + 1)) (I :: acc))
    (rauwL I.id (Value.ref (fresh + 1)) rest)
    (rauwL I.id (Value.ref (fresh + 1)) ext) [] hs3
  rw [List.nil_append] at heq3
  rw [heq3]
  obtain ⟨σ, tail, hsh, hid, hopc, hcst⟩ := algLoop_shape w
    ((⟨fresh + 1, Opcode.add, Value.ref fresh, x⟩ : Instr) ::
      (⟨fresh, Opcode.shl, x, Value.constInt (exactLogBase2 (subOne w c))⟩ : Instr) ::
      rauwL I.id (Value.ref (fresh + 1)) (I :: acc))
    (rauwL I.id (Value.ref (fresh + 1)) rest)
    (rauwL I.id (Value.ref (fresh + 1)) ext) (fresh + 2)
  refine ⟨(rauwL I.id (Value.ref (fresh + 1)) acc).reverse.map σ,
    σ (rauwI I.id (Value.ref (fresh + 1)) I),
    σ (⟨fresh, Opcode.shl, x, Value.constInt (exactLogBase2 (subOne w c))⟩ : Instr),
    σ (⟨fresh + 1, Opcode.add, Value.ref fresh, x⟩ : Instr),
    tail, ?_, ?_, ?_, ?_, ?_, ?_, ?_, ?_⟩
  · rw [hsh]
    show ((⟨fresh + 1, Opcode.add, Value.ref fresh, x⟩ : Instr) ::
      (⟨fresh, Opcode.shl, x, Value.constInt (exactLogBase2 (subOne w c))⟩ : Instr) ::
      rauwI I.id (Value.ref (fresh + 1)) I ::
      rauwL I.id (Value.ref (fresh + 1)) acc).reverse.map σ ++ tail = _
    simp [List.reverse_cons]
  · rw [hid, rauwI_id]
  · rw [hopc, rauwI_opcode, hop]
  · rw [hid]
  · rw [hopc]
  · exact hcst _ (exactLogBase2 (subOne w c)) rfl
  · rw [hid]
  · rw [hopc]

/-- The mul case where the classified constant plus one is a power of two:
a shift and a subtract are inserted after the instruction, which is
replaced everywhere by the subtract, keeps zero uses to the end of the
pass and survives with the two insertions immediately after it. -/
theorem c4_addOne_case (w fresh c : Nat) (I : Instr) (x : Value)
    (acc rest ext : List Instr)
    (hop : I.opcode = Opcode.mul)
    (hcl : getConstantFromInstruction I = some (c, x))
    (hx : x.isConst = false)
    (hlt : I.id < fresh)
    (hself : usesIn I.id I = 0)
    (hxne : x ≠ Value.ref I.id)
    (hc1 : c ≠ 1) (hc2 : isPow2 c = false) (hc3 : isPow2 (subOne w c) = false)
    (hc4 : isPow2 (addOne w c) = true) :
    algLoop w acc (I :: rest) ext fresh =
      algLoop w (rauwL I.id (Value.ref (fresh + 1)) (I :: acc))
        (⟨fresh, Opcode.shl, x, Value.constInt (exactLogBase2 (addOne w c))⟩ ::
          ⟨fresh + 1, Opcode.sub, Value.ref fresh, x⟩ ::
          rauwL I.id (Value.ref (fresh + 1)) rest)
        (rauwL I.id (Value.ref (fresh + 1)) ext) (fresh + 2)
    ∧ usesCount I.id (algLoop w acc (I :: rest) ext fresh).1 = 0
    ∧ usesCount I.id (algLoop w acc (I :: rest) ext fresh).2.1 = 0
    ∧ (∃ pre I' S' A' suf,
        (algLoop w acc (I :: rest) ext fresh).1 = pre ++ I' :: S' :: A' :: suf
        ∧ I'.id = I.id ∧ I'.opcode = Opcode.mul
        ∧ S'.id = fresh ∧ S'.opcode = Opcode.shl
        ∧ S'.op1 = Value.constInt (exactLogBase2 (addOne w c))
        ∧ A'.id = fresh + 1 ∧ A'.opcode = Opcode.sub) := by
  have hvne : Value.ref (fresh + 1) ≠ Value.ref I.id := by
    simp only [ne_eq, Value.ref.injEq]
    omega
  have hs : algInstrStep w fresh I =
      ([⟨fresh, Opcode.shl, x, Value.constInt (exactLogBase2 (addOne w c))⟩,
        ⟨fresh + 1, Opcode.sub, Value.ref fresh, x⟩],
        some (Value.ref (fresh + 1)), fresh + 2) := by
    rw [algInstrStep_mul w fresh c I x hop hcl, if_neg hc1,
      if_neg (by simp [hc2]), if_neg (by simp [hc3]), if_pos hc4]
  have hshluse : usesIn I.id (⟨fresh, Opcode.shl, x,
      Value.constInt (exactLogBase2 (addOne w c))⟩ : Instr) = 0 := by
    rw [usesIn_eq_zero]
    exact ⟨hxne, by simp⟩
  have hsubuse : usesIn I.id (⟨fresh + 1, Opcode.sub, Value.ref fresh, x⟩ : Instr) = 0 := by
    rw [usesIn_eq_zero]
    refine ⟨?_, hxne⟩
    simp only [ne_eq, Value.ref.injEq]
    omega
  have heq := algLoop_cons_some w fresh (fresh + 2) I (Value.ref (fresh + 1))
    acc rest ext
    [⟨fresh, Opcode.shl, x, Value.constInt (exactLogBase2 (addOne w c))⟩,
      ⟨fresh + 1, Opcode.sub, Value.ref fresh, x⟩] hs
  have hins : rauwL I.id (Value.ref (fresh + 1))
      ([⟨fresh, Opcode.shl, x, Value.constInt (exactLogBase2 (addOne w c))⟩,
        ⟨fresh + 1, Opcode.sub, Value.ref fresh, x⟩] ++ rest) =
      (⟨fresh, Opcode.shl, x, Value.constInt (exactLogBase2 (addOne w c))⟩ : Instr) ::
        (⟨fresh + 1, Opcode.sub, Value.ref fresh, x⟩ : Instr) ::
        rauwL I.id (Value.ref (fresh + 1)) rest := by
    rw [List.cons_append, List.singleton_append]
    show rauwI I.id _ _ :: rauwI I.id _ _ :: _ = _
    rw [rauwI_eq_self I.id _ _ hshluse, rauwI_eq_self I.id _ _ hsubuse]
    rfl
  rw [hins] at heq
  have hnracc : usesCount I.id
      (rauwL I.id (Value.ref (fresh + 1)) (I :: acc)) = 0 :=
    usesCount_rauwL_self I.id _ hvne (I :: acc)
  have hnrrest : usesCount I.id
      ((⟨fresh, Opcode.shl, x, Value.constInt (exactLogBase2 (addOne w c))⟩ : Instr) ::
        (⟨fresh + 1, Opcode.sub, Value.ref fresh, x⟩ : Instr) ::
        rauwL I.id (Value.ref (fresh + 1)) rest) = 0 := by
    rw [usesCount_cons, usesCount_cons, hshluse, hsubuse,
      usesCount_rauwL_self I.id _ hvne rest]
  have hnr := algLoop_noRef w I.id
    (rauwL I.id (Value.ref (fresh + 1)) (I :: acc))
    ((⟨fresh, Opcode.shl, x, Value.constInt (exactLogBase2 (addOne w c))⟩ : Instr) ::
      (⟨fresh + 1, Opcode.sub, Value.ref fresh, x⟩ : Instr) ::
      rauwL I.id (Value.ref (fresh + 1)) rest)
    (rauwL I.id (Value.ref (fresh + 1)) ext) (fresh + 2) (by omega)
    hnracc hnrrest (usesCount_rauwL_self I.id _ hvne ext)
  refine ⟨heq, by rw [heq]; exact hnr.1, by rw [heq]; exact hnr.2, ?_⟩
  rw [heq]
  have hs2 : algInstrStep w (fresh + 2)
      (⟨fresh, Opcode.shl, x, Value.constInt (exactLogBase2 (addOne w c))⟩ : Instr) =
      ([], none, fresh + 2) :=
    algInstrStep_skip w (fresh + 2) _ (Or.inr (Or.inl rfl))
  have heq2 := algLoop_cons_none w (fresh + 2) (fresh + 2)
    (⟨fresh, Opcode.shl, x, Value.constInt (exactLogBase2 (addOne w c))⟩ : Instr)
    (rauwL I.id (Value.ref (fresh + 1)) (I :: acc))
    ((⟨fresh + 1, Opcode.sub, Value.ref fresh, x⟩ : Instr) ::
      rauwL I.id (Value.ref (fresh + 1)) rest)
    (rauwL I.id (Value.ref (fresh + 1)) ext) [] hs2
  rw [List.nil_append] at heq2
  rw [heq2]
  have hs3 : algInstrStep w (fresh + 2)
      (⟨fresh + 1, Opcode.sub, Value.ref fresh, x⟩ : Instr) =
      ([], none, fresh + 2) :=
    algInstrStep_skip w (fresh + 2) _ (Or.inl rfl)
  have heq3 := algLoop_cons_none w (fresh + 2) (fresh + 2)
    (⟨fresh + 1, Opcode.sub, Value.ref fresh, x⟩ : Instr)
    ((⟨fresh, Opcode.shl, x, Value.constInt (exactLogBase2 (addOne w c))⟩ : Instr) ::
      rauwL I.id (Value.ref (fresh + 1)) (I :: acc))
    (rauwL I.id (Value.ref (fresh + 1)) rest)
    (rauwL I.id (Value.ref (fresh + 1)) ext) [] hs3
  rw [List.nil_append] at heq3
  rw [heq3]
  obtain ⟨σ, tail, hsh, hid, hopc, hcst⟩ := algLoop_shape w
    ((⟨fresh + 1, Opcode.sub, Value.ref fresh, x⟩ : Instr) ::
      (⟨fresh, Opcode.shl, x, Value.constInt (exactLogBase2 (addOne w c))⟩ : Instr) ::
      rauwL I.id (Value.ref (fresh + 1)) (I :: acc))
    (rauwL I.id (Value.ref (fresh + 1)) rest)
    (rauwL I.id (Value.ref (fresh + 1)) ext) (fresh + 2)
  refine ⟨(rauwL I.id (Value.ref (fresh + 1)) acc).reverse.map σ,
    σ (rauwI I.id (Value.ref (fresh + 1)) I),
    σ (⟨fresh, Opcode.shl, x, Value.constInt (exactLogBase2 (addOne w c))⟩ : Instr),
    σ (⟨fresh + 1, Opcode.sub, Value.ref fresh, x⟩ : Instr),
    tail, ?_, ?_, ?_, ?_, ?_, ?_, ?_, ?_⟩
  · rw [hsh]
    show ((⟨fresh + 1, Opcode.sub, Value.ref fresh, x⟩ : Instr) ::
      (⟨fresh, Opcode.shl, x, Value.constInt (exactLogBase2 (addOne w c))⟩ : Instr) ::
      rauwI I.id (Value.ref (fresh + 1)) I ::
      rauwL I.id (Value.ref (fresh + 1)) acc).reverse.map σ ++ tail = _
    simp [List.reverse_cons]
  · rw [hid, rauwI_id]
  · rw [hopc, rauwI_opcode, hop]
  · rw [hid]
  · rw [hopc]
  · exact hcst _ (exactLogBase2 (addOne w c)) rfl
  · rw [hid]
  · rw [hopc]

/-- C4.  For a Mul instruction at the cursor of the first pass classified
as (constant c, variable x), the cases are checked in order and only the
first matching one fires: c = 1 replaces all uses of the instruction with
x; else an exact power of two c = 2 ^ k inserts a left shift of x by k
immediately after it (the shift taking all its uses); else c - 1 = 2 ^ k
inserts the shift and then an add (shift, x) after it, the add taking all
its uses; else c + 1 = 2 ^ k inserts the shift and then a subtract
(shift - x), the subtract taking all its uses; otherwise nothing changes.
In every firing case the mul keeps zero remaining uses to the end of the
pass, survives in the block, and the inserted instructions sit immediately
after it in the final block. -/
theorem c4_mul_strength_reduction (w fresh c : Nat) (I : Instr) (x : Value)
    (acc rest ext : List Instr)
    (hop : I.opcode = Opcode.mul)
    (hcl : getConstantFromInstruction I = some (c, x))
    (hx : x.isConst = false)
    (hlt : I.id < fresh)
    (hself : usesIn I.id I = 0) :
    (c = 1 →
      algLoop w acc (I :: rest) ext fresh =
        algLoop w (rauwL I.id x (I :: acc)) (rauwL I.id x rest)
          (rauwL I.id x ext) fresh
      ∧ usesCount I.id (algLoop w acc (I :: rest) ext fresh).1 = 0
      ∧ usesCount I.id (algLoop w acc (I :: rest) ext fresh).2.1 = 0
      ∧ (∃ pre I' suf, (algLoop w acc (I :: rest) ext fresh).1 = pre ++ I' :: suf
          ∧ I'.id = I.id ∧ I'.opcode = Opcode.mul))
    ∧ (c ≠ 1 → isPow2 c = true →
      algLoop w acc (I :: rest) ext fresh =
        algLoop w (rauwL I.id (Value.ref fresh) (I :: acc))
          (⟨fresh, Opcode.shl, x, Value.constInt (exactLogBase2 c)⟩ ::
            rauwL I.id (Value.ref fresh) rest)
          (rauwL I.id (Value.ref fresh) ext) (fresh + 1)
      ∧ usesCount I.id (algLoop w acc (I :: rest) ext fresh).1 = 0
      ∧ usesCount I.id (algLoop w acc (I :: rest) ext fresh).2.1 = 0
      ∧ (∃ pre I' S' suf,
          (algLoop w acc (I :: rest) ext fresh).1 = pre ++ I' :: S' :: suf
          ∧ I'.id = I.id ∧ I'.opcode = Opcode.mul
          ∧ S'.id = fresh ∧ S'.opcode = Opcode.shl
          ∧ S'.op1 = Value.constInt (exactLogBase2 c)))
    ∧ (c ≠ 1 → isPow2 c = false → isPow2 (subOne w c) = true →
      algLoop w acc (I :: rest) ext fresh =
        algLoop w (rauwL I.id (Value.ref (fresh + 1)) (I :: acc))
          (⟨fresh, Opcode.shl, x, Value.constInt (exactLogBase2 (subOne w c))⟩ ::
            ⟨fresh + 1, Opcode.add, Value.ref fresh, x⟩ ::
            rauwL I.id (Value.ref (fresh + 1)) rest)
          (rauwL I.id (Value.ref (fresh + 1)) ext) (fresh + 2)
      ∧ usesCount I.id (algLoop w acc (I :: rest) ext fresh).1 = 0
      ∧ usesCount I.id (algLoop w acc (I :: rest) ext fresh).2.1 = 0
      ∧ (∃ pre I' S' A' suf,
          (algLoop w acc (I :: rest) ext fresh).1 = pre ++ I' :: S' :: A' :: suf
          ∧ I'.id = I.id ∧ I'.opcode = Opcode.mul
          ∧ S'.id = fresh ∧ S'.opcode = Opcode.shl
          ∧ S'.op1 = Value.constInt (exactLogBase2 (subOne w c))
          ∧ A'.id = fresh + 1 ∧ A'.opcode = Opcode.add))
    ∧ (c ≠ 1 → isPow2 c = false → isPow2 (subOne w c) = false →
        isPow2 (addOne w c) = true →
      algLoop w acc (I :: rest) ext fresh =
        algLoop w (rauwL I.id (Value.ref (fresh + 1)) (I :: acc))
          (⟨fresh, Opcode.shl, x, Value.constInt (exactLogBase2 (addOne w c))⟩ ::
            ⟨fresh + 1, Opcode.sub, Value.ref fresh, x⟩ ::
            rauwL I.id (Value.ref (fresh + 1)) rest)
          (rauwL I.id (Value.ref (fresh + 1)) ext) (fresh + 2)
      ∧ usesCount I.id (algLoop w acc (I :: rest) ext fresh).1 = 0
      ∧ usesCount I.id (algLoop w acc (I :: rest) ext fresh).2.1 = 0
      ∧ (∃ pre I' S' A' suf,
          (algLoop w acc (I :: rest) ext fresh).1 = pre ++ I' :: S' :: A' :: suf
          ∧ I'.id = I.id ∧ I'.opcode = Opcode.mul
          ∧ S'.id = fresh ∧ S'.opcode = Opcode.shl
          ∧ S'.op1 = Value.constInt (exactLogBase2 (addOne w c))
          ∧ A'.id = fresh + 1 ∧ A'.opcode = Opcode.sub))
    ∧ (c ≠ 1 → isPow2 c = false → isPow2 (subOne w c) = false →
        isPow2 (addOne w c) = false →
      algLoop w acc (I :: rest) ext fresh = algLoop w (I :: acc) rest ext fresh) := by
  have hxne : x ≠ Value.ref I.id := by
    rw [usesIn_eq_zero] at hself
    rcases getConstant_param I c x hcl with hg | hg
    · rw [hg]; exact hself.1
    · rw [hg]; exact hself.2
  have hself' : usesIn I.id I = 0 := hself
  refine ⟨?_, ?_, ?_, ?_, ?_⟩
  · -- c = 1
    intro hc
    subst hc
    have hs : algInstrStep w fresh I = ([], some x, fresh) := by
      rw [algInstrStep_mul w fresh 1 I x hop hcl, if_pos rfl]
    have heq := algLoop_cons_some w fresh fresh I x acc rest ext [] hs
    rw [List.nil_append] at heq
    have hnr := algLoop_noRef w I.id (rauwL I.id x (I :: acc)) (rauwL I.id x rest)
      (rauwL I.id x ext) fresh hlt
      (usesCount_rauwL_self I.id x hxne (I :: acc))
      (usesCount_rauwL_self I.id x hxne rest)
      (usesCount_rauwL_self I.id x hxne ext)
    refine ⟨heq, by rw [heq]; exact hnr.1, by rw [heq]; exact hnr.2, ?_⟩
    rw [heq]
    obtain ⟨σ, tail, hsh, hid, hopc, _⟩ := algLoop_shape w
      (rauwL I.id x (I :: acc)) (rauwL I.id x rest) (rauwL I.id x ext) fresh
    refine ⟨(rauwL I.id x acc).reverse.map σ, σ (rauwI I.id x I), tail, ?_, ?_, ?_⟩
    · rw [hsh]
      show ((rauwI I.id x I :: rauwL I.id x acc).reverse).map σ ++ tail = _
      simp [List.reverse_cons]
    · rw [hid, rauwI_id]
    · rw [hopc, rauwI_opcode, hop]
  · -- c a power of two
    intro hc1 hc2
    have hvne : Value.ref fresh ≠ Value.ref I.id := by
      simp only [ne_eq, Value.ref.injEq]
      omega
    have hs : algInstrStep w fresh I =
        ([⟨fresh, Opcode.shl, x, Value.constInt (exactLogBase2 c)⟩],
          some (Value.ref fresh), fresh + 1) := by
      rw [algInstrStep_mul w fresh c I x hop hcl, if_neg hc1, if_pos hc2]
    have hshluse : usesIn I.id (⟨fresh, Opcode.shl, x,
        Value.constInt (exactLogBase2 c)⟩ : Instr) = 0 := by
      rw [usesIn_eq_zero]
      exact ⟨hxne, by simp⟩
    have heq := algLoop_cons_some w fresh (fresh + 1) I (Value.ref fresh)
      acc rest ext [⟨fresh, Opcode.shl, x, Value.constInt (exactLogBase2 c)⟩] hs
    have hins : rauwL I.id (Value.ref fresh)
        ([⟨fresh, Opcode.shl, x, Value.constInt (exactLogBase2 c)⟩] ++ rest) =
        (⟨fresh, Opcode.shl, x, Value.constInt (exactLogBase2 c)⟩ : Instr) ::
          rauwL I.id (Value.ref fresh) rest := by
      rw [List.singleton_append]
      show rauwI I.id (Value.ref fresh) _ :: _ = _
      rw [rauwI_eq_self I.id (Value.ref fresh) _ hshluse]
      rfl
    rw [hins] at heq
    have hnracc : usesCount I.id (rauwL I.id (Value.ref fresh) (I :: acc)) = 0 :=
      usesCount_rauwL_self I.id (Value.ref fresh) hvne (I :: acc)
    have hnrrest : usesCount I.id
        ((⟨fresh, Opcode.shl, x, Value.constInt (exactLogBase2 c)⟩ : Instr) ::
          rauwL I.id (Value.ref fresh) rest) = 0 := by
      rw [usesCount_cons, hshluse,
        usesCount_rauwL_self I.id (Value.ref fresh) hvne rest]
    have hnrext : usesCount I.id (rauwL I.id (Value.ref fresh) ext) = 0 :=
      usesCount_rauwL_self I.id (Value.ref fresh) hvne ext
    have hnr := algLoop_noRef w I.id (rauwL I.id (Value.ref fresh) (I :: acc))
      ((⟨fresh, Opcode.shl, x, Value.constInt (exactLogBase2 c)⟩ : Instr) ::
        rauwL I.id (Value.ref fresh) rest)
      (rauwL I.id (Value.ref fresh) ext) (fresh + 1) (by omega)
      hnracc hnrrest hnrext
    refine ⟨heq, by rw [heq]; exact hnr.1, by rw [heq]; exact hnr.2, ?_⟩
    rw [heq]
    have hs2 : algInstrStep w (fresh + 1)
        (⟨fresh, Opcode.shl, x, Value.constInt (exactLogBase2 c)⟩ : Instr) =
        ([], none, fresh + 1) :=
      algInstrStep_skip w (fresh + 1) _ (Or.inr (Or.inl rfl))
    have heq2 := algLoop_cons_none w (fresh + 1) (fresh + 1)
      (⟨fresh, Opcode.shl, x, Value.constInt (exactLogBase2 c)⟩ : Instr)
      (rauwL I.id (Value.ref fresh) (I :: acc))
      (rauwL I.id (Value.ref fresh) rest)
      (rauwL I.id (Value.ref fresh) ext) [] hs2
    rw [List.nil_append] at heq2
    rw [heq2]
    obtain ⟨σ, tail, hsh, hid, hopc, hcst⟩ := algLoop_shape w
      ((⟨fresh, Opcode.shl, x, Value.constInt (exactLogBase2 c)⟩ : Instr) ::
        rauwL I.id (Value.ref fresh) (I :: acc))
      (rauwL I.id (Value.ref fresh) rest)
      (rauwL I.id (Value.ref fresh) ext) (fresh + 1)
    refine ⟨(rauwL I.id (Value.ref fresh) acc).reverse.map σ,
      σ (rauwI I.id (Value.ref fresh) I),
      σ (⟨fresh, Opcode.shl, x, Value.constInt (exactLogBase2 c)⟩ : Instr),
      tail, ?_, ?_, ?_, ?_, ?_, ?_⟩
    · rw [hsh]
      show ((⟨fresh, Opcode.shl, x, Value.constInt (exactLogBase2 c)⟩ : Instr) ::
        rauwI I.id (Value.ref fresh) I ::
        rauwL I.id (Value.ref fresh) acc).reverse.map σ ++ tail = _
      simp [List.reverse_cons]
    · rw [hid, rauwI_id]
    · rw [hopc, rauwI_opcode, hop]
    · rw [hid]
    · rw [hopc]
    · exact hcst _ (exactLogBase2 c) rfl
  · -- c - 1 a power of two
    intro hc1 hc2 hc3
    exact c4_subOne_case w fresh c I x acc rest ext hop hcl hx hlt hself hxne
      hc1 hc2 hc3
  · -- c + 1 a power of two
    intro hc1 hc2 hc3 hc4
    exact c4_addOne_case w fresh c I x acc rest ext hop hcl hx hlt hself hxne
      hc1 hc2 hc3 hc4
  · -- no case matches
    intro hc1 hc2 hc3 hc4
    have hs : algInstrStep w fresh I = ([], none, fresh) := by
      rw [algInstrStep_mul w fresh c I x hop hcl, if_neg hc1]
      rw [if_neg (by simp [hc2]), if_neg (by simp [hc3]), if_neg (by simp [hc4])]
    have heq := algLoop_cons_none w fresh fresh I acc rest ext [] hs
    rwa [List.nil_append] at heq

/-- Witness for C4 at the concrete block [m = x * 4, z = opaque use of m]:
the power-of-two case applies and m has no remaining uses at the end of
the first pass. -/
theorem c4_mul_strength_reduction_witness :
    usesCount 0 ((algLoop 8 []
      [⟨0, .mul, .param 0, .constInt 4⟩, ⟨1, .other 0, .ref 0, .ref 0⟩] [] 2).1) = 0 :=
  ((c4_mul_strength_reduction 8 2 4 ⟨0, .mul, .param 0, .constInt 4⟩ (.param 0) []
      [⟨1, .other 0, .ref 0, .ref 0⟩] [] rfl rfl rfl (by decide) (by decide)).2.1
    (by decide) (by decide)).2.1

/-- C5.  For a SignedDiv instruction at the cursor of the first pass: if
operand 1 is not a constant the instruction is left unchanged by this
dispatch (even when the constant sits in operand 0 as the dividend); if
operand 1 is the constant 1 every use is replaced with the dividend
(operand 0); if operand 1 is an exact power of two 2 ^ k a logical right
shift of the dividend by k is inserted immediately after the instruction
and takes all its uses; in the firing cases the sdiv keeps zero remaining
uses to the end of the pass and survives in the block. -/
theorem c5_sdiv_strength_reduction (w fresh : Nat) (I : Instr)
    (acc rest ext : List Instr)
    (hop : I.opcode = Opcode.sdiv)
    (hlt : I.id < fresh)
    (hself : usesIn I.id I = 0) :
    (I.op1.isConst = false →
      algLoop w acc (I :: rest) ext fresh = algLoop w (I :: acc) rest ext fresh)
    ∧ (I.op1 = Value.constInt 1 →
      algLoop w acc (I :: rest) ext fresh =
        algLoop w (rauwL I.id I.op0 (I :: acc)) (rauwL I.id I.op0 rest)
          (rauwL I.id I.op0 ext) fresh
      ∧ usesCount I.id (algLoop w acc (I :: rest) ext fresh).1 = 0
      ∧ usesCount I.id (algLoop w acc (I :: rest) ext fresh).2.1 = 0
      ∧ (∃ pre I' suf, (algLoop w acc (I :: rest) ext fresh).1 = pre ++ I' :: suf
          ∧ I'.id = I.id ∧ I'.opcode = Opcode.sdiv))
    ∧ (∀ c, I.op1 = Value.constInt c → c ≠ 1 → isPow2 c = true →
      algLoop w acc (I :: rest) ext fresh =
        algLoop w (rauwL I.id (Value.ref fresh) (I :: acc))
          (⟨fresh, Opcode.lshr, I.op0, Value.constInt (exactLogBase2 c)⟩ ::
            rauwL I.id (Value.ref fresh) rest)
          (rauwL I.id (Value.ref fresh) ext) (fresh + 1)
      ∧ usesCount I.id (algLoop w acc (I :: rest) ext fresh).1 = 0
      ∧ usesCount I.id (algLoop w acc (I :: rest) ext fresh).2.1 = 0
      ∧ (∃ pre I' S' suf,
          (algLoop w acc (I :: rest) ext fresh).1 = pre ++ I' :: S' :: suf
          ∧ I'.id = I.id ∧ I'.opcode = Opcode.sdiv
          ∧ S'.id = fresh ∧ S'.opcode = Opcode.lshr
          ∧ S'.op1 = Value.constInt (exactLogBase2 c))) := by
  have hop0ne : I.op0 ≠ Value.ref I.id := by
    rw [usesIn_eq_zero] at hself
    exact hself.1
  refine ⟨?_, ?_, ?_⟩
  · intro hnc
    have hs : algInstrStep w fresh I = ([], none, fresh) := by
      unfold algInstrStep
      rw [hop]
      cases hv : I.op1 with
      | constInt c =>
        rw [hv] at hnc
        simp [Value.isConst] at hnc
      | ref j => rfl
      | param n => rfl
    have heq := algLoop_cons_none w fresh fresh I acc rest ext [] hs
    rwa [List.nil_append] at heq
  · intro hc
    have hs : algInstrStep w fresh I = ([], some I.op0, fresh) := by
      rw [algInstrStep_sdiv w fresh 1 I hop hc, if_pos rfl]
    have heq := algLoop_cons_some w fresh fresh I I.op0 acc rest ext [] hs
    rw [List.nil_append] at heq
    have hnr := algLoop_noRef w I.id (rauwL I.id I.op0 (I :: acc))
      (rauwL I.id I.op0 rest) (rauwL I.id I.op0 ext) fresh hlt
      (usesCount_rauwL_self I.id I.op0 hop0ne (I :: acc))
      (usesCount_rauwL_self I.id I.op0 hop0ne rest)
      (usesCount_rauwL_self I.id I.op0 hop0ne ext)
    refine ⟨heq, by rw [heq]; exact hnr.1, by rw [heq]; exact hnr.2, ?_⟩
    rw [heq]
    obtain ⟨σ, tail, hsh, hid, hopc, _⟩ := algLoop_shape w
      (rauwL I.id I.op0 (I :: acc)) (rauwL I.id I.op0 rest)
      (rauwL I.id I.op0 ext) fresh
    refine ⟨(rauwL I.id I.op0 acc).reverse.map σ, σ (rauwI I.id I.op0 I), tail,
      ?_, ?_, ?_⟩
    · rw [hsh]
      show ((rauwI I.id I.op0 I :: rauwL I.id I.op0 acc).reverse).map σ ++ tail = _
      simp [List.reverse_cons]
    · rw [hid, rauwI_id]
    · rw [hopc, rauwI_opcode, hop]
  · intro c hc hc1 hc2
    have hvne : Value.ref fresh ≠ Value.ref I.id := by
      simp only [ne_eq, Value.ref.injEq]
      omega
    have hs : algInstrStep w fresh I =
        ([⟨fresh, Opcode.lshr, I.op0, Value.constInt (exactLogBase2 c)⟩],
          some (Value.ref fresh), fresh + 1) := by
      rw [algInstrStep_sdiv w fresh c I hop hc, if_neg hc1, if_pos hc2]
    have hlshruse : usesIn I.id (⟨fresh, Opcode.lshr, I.op0,
        Value.constInt (exactLogBase2 c)⟩ : Instr) = 0 := by
      rw [usesIn_eq_zero]
      exact ⟨hop0ne, by simp⟩
    have heq := algLoop_cons_some w fresh (fresh + 1) I (Value.ref fresh)
      acc rest ext [⟨fresh, Opcode.lshr, I.op0, Value.constInt (exactLogBase2 c)⟩] hs
    have hins : rauwL I.id (Value.ref fresh)
        ([⟨fresh, Opcode.lshr, I.op0, Value.constInt (exactLogBase2 c)⟩] ++ rest) =
        (⟨fresh, Opcode.lshr, I.op0, Value.constInt (exactLogBase2 c)⟩ : Instr) ::
          rauwL I.id (Value.ref fresh) rest := by
      rw [List.singleton_append]
      show rauwI I.id (Value.ref fresh) _ :: _ = _
      rw [rauwI_eq_self I.id (Value.ref fresh) _ hlshruse]
      rfl
    rw [hins] at heq
    have hnrrest : usesCount I.id
        ((⟨fresh, Opcode.lshr, I.op0, Value.constInt (exactLogBase2 c)⟩ : Instr) ::
          rauwL I.id (Value.ref fresh) rest) = 0 := by
      rw [usesCount_cons, hlshruse,
        usesCount_rauwL_self I.id (Value.ref fresh) hvne rest]
    have hnr := algLoop_noRef w I.id (rauwL I.id (Value.ref fresh) (I :: acc))
      ((⟨fresh, Opcode.lshr, I.op0, Value.constInt (exactLogBase2 c)⟩ : Instr) ::
        rauwL I.id (Value.ref fresh) rest)
      (rauwL I.id (Value.ref fresh) ext) (fresh + 1) (by omega)
      (usesCount_rauwL_self I.id (Value.ref fresh) hvne (I :: acc))
      hnrrest
      (usesCount_rauwL_self I.id (Value.ref fresh) hvne ext)
    refine ⟨heq, by rw [heq]; exact hnr.1, by rw [heq]; exact hnr.2, ?_⟩
    rw [heq]
    have hs2 : algInstrStep w (fresh + 1)
        (⟨fresh, Opcode.lshr, I.op0, Value.constInt (exactLogBase2 c)⟩ : Instr) =
        ([], none, fresh + 1) :=
      algInstrStep_skip w (fresh + 1) _ (Or.inr (Or.inr (Or.inl rfl)))
    have heq2 := algLoop_cons_none w (fresh + 1) (fresh + 1)
      (⟨fresh, Opcode.lshr, I.op0, Value.constInt (exactLogBase2 c)⟩ : Instr)
      (rauwL I.id (Value.ref fresh) (I :: acc))
      (rauwL I.id (Value.ref fresh) rest)
      (rauwL I.id (Value.ref fresh) ext) [] hs2
    rw [List.nil_append] at heq2
    rw [heq2]
    obtain ⟨σ, tail, hsh, hid, hopc, hcst⟩ := algLoop_shape w
      ((⟨fresh, Opcode.lshr, I.op0, Value.constInt (exactLogBase2 c)⟩ : Instr) ::
        rauwL I.id (Value.ref fresh) (I :: acc))
      (rauwL I.id (Value.ref fresh) rest)
      (rauwL I.id (Value.ref fresh) ext) (fresh + 1)
    refine ⟨(rauwL I.id (Value.ref fresh) acc).reverse.map σ,
      σ (rauwI I.id (Value.ref fresh) I),
      σ (⟨fresh, Opcode.lshr, I.op0, Value.constInt (exactLogBase2 c)⟩ : Instr),
      tail, ?_, ?_, ?_, ?_, ?_, ?_⟩
    · rw [hsh]
      show ((⟨fresh, Opcode.lshr, I.op0, Value.constInt (exactLogBase2 c)⟩ : Instr) ::
        rauwI I.id (Value.ref fresh) I ::
        rauwL I.id (Value.ref fresh) acc).reverse.map σ ++ tail = _
      simp [List.reverse_cons]
    · rw [hid, rauwI_id]
    · rw [hopc, rauwI_opcode, hop]
    · rw [hid]
    · rw [hopc]
    · exact hcst _ (exactLogBase2 c) rfl

/-- Witness for C5 at the concrete block [d = x sdiv 4, z = opaque use of
d]: the power-of-two case applies and d has no remaining uses at the end
of the first pass. -/
theorem c5_sdiv_strength_reduction_witness :
    usesCount 0 ((algLoop 8 []
      [⟨0, .sdiv, .param 0, .constInt 4⟩, ⟨1, .other 0, .ref 0, .ref 0⟩] [] 2).1) = 0 :=
  ((c5_sdiv_strength_reduction 8 2 ⟨0, .sdiv, .param 0, .constInt 4⟩ []
      [⟨1, .other 0, .ref 0, .ref 0⟩] [] rfl (by decide) rfl).2.2
    4 rfl (by decide) (by decide)).2.1

theorem dceLoop_nil (acc ext : List Instr) : dceLoop acc [] ext = acc.reverse := rfl

theorem dceLoop_cons (acc ext rest' : List Instr) (I : Instr) :
    dceLoop acc (I :: rest') ext =
      if usesCount I.id (acc.reverse ++ (I :: rest') ++ ext) = 0 ∧ I.isBinaryOp then
        dceLoop acc rest' ext
      else
        dceLoop (I :: acc) rest' ext := rfl

theorem dce_acc_mem (ext : List Instr) :
    ∀ rest acc, ∀ J ∈ acc, J ∈ dceLoop acc rest ext := by
  intro rest
  induction rest with
  | nil =>
    intro acc J hJ
    rw [dceLoop_nil]
    exact List.mem_reverse.mpr hJ
  | cons I rest' ih =>
    intro acc J hJ
    rw [dceLoop_cons]
    split
    · exact ih acc J hJ
    · exact ih (I :: acc) J (List.mem_cons_of_mem I hJ)

theorem usesCount_three (i : Nat) (a b c : List Instr) :
    usesCount i (a ++ b ++ c) = usesCount i a + usesCount i b + usesCount i c := by
  rw [usesCount_append, usesCount_append]

theorem dce_uses_mono (ext : List Instr) (i : Nat) :
    ∀ rest acc, usesCount i (dceLoop acc rest ext ++ ext) ≤
      usesCount i (acc.reverse ++ rest ++ ext) := by
  intro rest
  induction rest with
  | nil =>
    intro acc
    rw [dceLoop_nil]
    simp [usesCount_append]
  | cons I rest' ih =>
    intro acc
    rw [dceLoop_cons]
    split
    · have h := ih acc
      rw [usesCount_three] at h
      rw [usesCount_three, usesCount_cons]
      omega
    · have h := ih (I :: acc)
      rw [usesCount_three, usesCount_reverse, usesCount_cons] at h
      rw [usesCount_three, usesCount_reverse, usesCount_cons]
      omega

theorem dce_removed_dead (ext : List Instr) (i : Nat) :
    ∀ rest acc, i ∈ rest.map Instr.id →
      i ∉ (dceLoop acc rest ext).map Instr.id →
      usesCount i (dceLoop acc rest ext ++ ext) = 0 := by
  intro rest
  induction rest with
  | nil =>
    intro acc h _
    simp at h
  | cons I rest' ih =>
    intro acc hin hout
    rw [dceLoop_cons] at hout ⊢
    by_cases hid : I.id = i
    · subst hid
      by_cases hcond : usesCount I.id (acc.reverse ++ (I :: rest') ++ ext) = 0 ∧
          I.isBinaryOp = true
      · rw [if_pos hcond] at hout ⊢
        have hmono := dce_uses_mono ext I.id rest' acc
        have h1 := hcond.1
        rw [usesCount_three, usesCount_cons] at h1
        rw [usesCount_three] at hmono
        omega
      · rw [if_neg hcond] at hout ⊢
        exact absurd (List.mem_map.mpr
          ⟨I, dce_acc_mem ext rest' (I :: acc) I (List.mem_cons_self I acc), rfl⟩) hout
    · have hin' : i ∈ rest'.map Instr.id := by
        rcases List.mem_map.mp hin with ⟨J, hJ, hJi⟩
        rcases List.mem_cons.mp hJ with rfl | hJ
        · exact absurd hJi hid
        · exact List.mem_map.mpr ⟨J, hJ, hJi⟩
      by_cases hcond : usesCount I.id (acc.reverse ++ (I :: rest') ++ ext) = 0 ∧
          I.isBinaryOp = true
      · rw [if_pos hcond] at hout ⊢
        exact ih acc hin' hout
      · rw [if_neg hcond] at hout ⊢
        exact ih (I :: acc) hin' hout

theorem dce_no_id (ext : List Instr) (i : Nat) :
    ∀ rest acc, (∀ J ∈ acc, J.id ≠ i) →
      (∀ J ∈ rest, J.id = i → J.isBinaryOp = true) →
      usesCount i (acc.reverse ++ rest ++ ext) = 0 →
      i ∉ (dceLoop acc rest ext).map Instr.id := by
  intro rest
  induction rest with
  | nil =>
    intro acc hacc _ _ hmem
    rw [dceLoop_nil] at hmem
    rcases List.mem_map.mp hmem with ⟨J, hJ, hJi⟩
    exact hacc J (List.mem_reverse.mp hJ) hJi
  | cons I rest' ih =>
    intro acc hacc hbin huse
    rw [dceLoop_cons]
    by_cases hid : I.id = i
    · have hcond : usesCount I.id (acc.reverse ++ (I :: rest') ++ ext) = 0 ∧
          I.isBinaryOp = true := by
        constructor
        · rw [hid]; exact huse
        · exact hbin I (List.mem_cons_self I rest') hid
      rw [if_pos hcond]
      refine ih acc hacc (fun J hJ => hbin J (List.mem_cons_of_mem I hJ)) ?_
      rw [usesCount_three, usesCount_cons] at huse
      rw [usesCount_three]
      omega
    · split
      · refine ih acc hacc (fun J hJ => hbin J (List.mem_cons_of_mem I hJ)) ?_
        rw [usesCount_three, usesCount_cons] at huse
        rw [usesCount_three]
        omega
      · refine ih (I :: acc) ?_ (fun J hJ => hbin J (List.mem_cons_of_mem I hJ)) ?_
        · intro J hJ
          rcases List.mem_cons.mp hJ with rfl | hJ
          · exact hid
          · exact hacc J hJ
        · rw [usesCount_three, usesCount_cons] at huse
          rw [usesCount_three, usesCount_reverse, usesCount_cons]
          rw [usesCount_reverse] at huse
          omega

theorem dce_sublist (ext : List Instr) :
    ∀ rest acc, (dceLoop acc rest ext).Sublist (acc.reverse ++ rest) := by
  intro rest
  induction rest with
  | nil =>
    intro acc
    rw [dceLoop_nil]
    simp
  | cons I rest' ih =>
    intro acc
    rw [dceLoop_cons]
    split
    · apply (ih acc).trans
      apply List.Sublist.append_left
      exact List.sublist_cons_self I rest'
    · apply (ih (I :: acc)).trans
      rw [List.reverse_cons, List.append_assoc, List.singleton_append]

/-- C7.  deadCodeElimination is one linear sweep of the block: every
binary-arithmetic instruction of the block with zero uses as the sweep
starts (i.e. when the first two passes have finished) is absent from the
block afterwards; no instruction with at least one remaining use at the
moment the sweep reaches it is ever removed - for any state of the sweep
with the cursor at I (visited prefix acc in reverse, remainder I followed
by the rest), if I has a use in the live instructions at that moment,
which is exactly the count the code consults in its erase test, then I is
in the block the sweep returns; consequently any instruction still used
when the sweep ends was kept; and the surviving instructions are a
subsequence of the block - same instructions, same relative order. -/
theorem c7_dce_linear_sweep (B ext : List Instr)
    (hnd : (B.map Instr.id).Nodup) :
    ((deadCodeElimination B ext).1.Sublist B)
    ∧ (∀ I ∈ B, I.isBinaryOp = true → usesCount I.id (B ++ ext) = 0 →
        I.id ∉ (deadCodeElimination B ext).1.map Instr.id)
    ∧ (∀ acc rest' I, 1 ≤ usesCount I.id (acc.reverse ++ (I :: rest') ++ ext) →
        I ∈ dceLoop acc (I :: rest') ext)
    ∧ (∀ I ∈ B, 1 ≤ usesCount I.id ((deadCodeElimination B ext).1 ++ ext) →
        I.id ∈ (deadCodeElimination B ext).1.map Instr.id) := by
  refine ⟨?_, ?_, ?_, ?_⟩
  · have h := dce_sublist ext B []
    simpa [deadCodeElimination] using h
  · intro I hI hbin huse
    show I.id ∉ (dceLoop [] B ext).map Instr.id
    apply dce_no_id ext I.id B [] (by intro J hJ; cases hJ)
    · intro J hJ hJi
      have : J = I := List.inj_on_of_nodup_map hnd hJ hI hJi
      rw [this]
      exact hbin
    · simpa using huse
  · intro acc rest' I huse
    rw [dceLoop_cons]
    rw [if_neg (fun hcond => absurd hcond.1 (by omega))]
    exact dce_acc_mem ext rest' (I :: acc) I (List.mem_cons_self I acc)
  · intro I hI huse
    by_contra hout
    have h := dce_removed_dead ext I.id B []
      (List.mem_map.mpr ⟨I, hI, rfl⟩) hout
    show False
    rw [show (deadCodeElimination B ext).1 = dceLoop [] B ext from rfl] at huse
    omega

/-- Witness for C7.  On the block [a = p + q (dead), z = opaque use of p]
the dead add is removed and the result is a subsequence of the block; and
at the sweep state reaching t in the block [t = x + 5, y = t - 5 (dead)],
t has a remaining use (from y) at that moment and is kept, even though
erasing y later in the same sweep leaves t with zero uses at the end. -/
theorem c7_dce_linear_sweep_witness :
    ((deadCodeElimination
        [⟨0, .add, .param 0, .param 1⟩, ⟨1, .other 0, .param 0, .param 0⟩] []).1.Sublist
      [⟨0, .add, .param 0, .param 1⟩, ⟨1, .other 0, .param 0, .param 0⟩])
    ∧ (0 : Nat) ∉ ((deadCodeElimination
        [⟨0, .add, .param 0, .param 1⟩, ⟨1, .other 0, .param 0, .param 0⟩] []).1.map Instr.id)
    ∧ (⟨0, .add, .param 0, .constInt 5⟩ : Instr) ∈ dceLoop []
        [⟨0, .add, .param 0, .constInt 5⟩, ⟨1, .sub, .ref 0, .constInt 5⟩] [] := by
  have h := c7_dce_linear_sweep
    [⟨0, .add, .param 0, .param 1⟩, ⟨1, .other 0, .param 0, .param 0⟩] []
    (by decide)
  refine ⟨h.1, h.2.1 ⟨0, .add, .param 0, .param 1⟩ (by decide) (by decide) (by decide), ?_⟩
  exact h.2.2.1 [] [⟨1, .sub, .ref 0, .constInt 5⟩]
    ⟨0, .add, .param 0, .constInt 5⟩ (by decide)

theorem multiUserStep_cases (c : Nat) (opp : Opcode) (prm : Value)
    (T : List Instr) (u : Nat) :
    multiUserStep c opp prm T u = T ∨
    multiUserStep c opp prm T u = rauwL u prm T := by
  unfold multiUserStep
  repeat' split
  all_goals simp

theorem multiFold_noRef (c : Nat) (opp : Opcode) (prm : Value) (uid : Nat)
    (hpne : prm ≠ Value.ref uid) :
    ∀ (us : List Nat) (T : List Instr), usesCount uid T = 0 →
      usesCount uid (us.foldl (multiUserStep c opp prm) T) = 0 := by
  intro us
  induction us with
  | nil => intro T h; exact h
  | cons u us' ih =>
    intro T h
    rw [List.foldl_cons]
    rcases multiUserStep_cases c opp prm T u with hc | hc <;> rw [hc]
    · exact ih T h
    · exact ih (rauwL u prm T) (usesCount_rauwL_zero uid u prm T h hpne)

theorem multiFold_shape (c : Nat) (opp : Opcode) (prm : Value) :
    ∀ (us : List Nat) (T : List Instr), (∀ u ∈ us, prm ≠ Value.ref u) →
      ∃ σ, us.foldl (multiUserStep c opp prm) T = T.map σ ∧
        (∀ J, (σ J).id = J.id) ∧ (∀ J, (σ J).opcode = J.opcode) ∧
        (∀ J, J.op0 = prm → (σ J).op0 = prm) ∧
        (∀ J, J.op1 = prm → (σ J).op1 = prm) := by
  intro us
  induction us with
  | nil =>
    intro T _
    exact ⟨id, by simp, by simp, by simp, by simp, by simp⟩
  | cons u us' ih =>
    intro T hus
    rw [List.foldl_cons]
    rcases multiUserStep_cases c opp prm T u with hc | hc <;> rw [hc]
    · exact ih T (fun v hv => hus v (List.mem_cons_of_mem u hv))
    · obtain ⟨σ, heq, hid, hopc, h0, h1⟩ :=
        ih (rauwL u prm T) (fun v hv => hus v (List.mem_cons_of_mem u hv))
      have hpu : prm ≠ Value.ref u := hus u (List.mem_cons_self u us')
      refine ⟨σ ∘ rauwI u prm, ?_, ?_, ?_, ?_, ?_⟩
      · rw [heq]
        show (T.map (rauwI u prm)).map σ = _
        rw [List.map_map]
      · intro J
        rw [Function.comp_apply, hid, rauwI_id]
      · intro J
        rw [Function.comp_apply, hopc, rauwI_opcode]
      · intro J hJ
        rw [Function.comp_apply]
        apply h0
        show rauwV u prm J.op0 = prm
        rw [hJ, rauwV_eq_self u prm prm hpu]
      · intro J hJ
        rw [Function.comp_apply]
        apply h1
        show rauwV u prm J.op1 = prm
        rw [hJ, rauwV_eq_self u prm prm hpu]

theorem find?_id_nodup (uid : Nat) :
    ∀ S : List Instr, (S.map Instr.id).Nodup → ∀ U ∈ S, U.id = uid →
      S.find? (fun J => J.id = uid) = some U := by
  intro S
  induction S with
  | nil => intro _ U hU; cases hU
  | cons K S' ih =>
    intro hnd U hU hUid
    rcases List.mem_cons.mp hU with rfl | hU'
    · rw [List.find?_cons_of_pos _ (by simp [hUid])]
    · have hK : K.id ≠ uid := by
        intro hKid
        rw [List.map_cons, List.nodup_cons] at hnd
        exact hnd.1 (by rw [hKid, ← hUid]; exact List.mem_map.mpr ⟨U, hU', rfl⟩)
      rw [List.find?_cons_of_neg _ (by simp [hK])]
      rw [List.map_cons, List.nodup_cons] at hnd
      exact ih hnd.2 U hU' hUid

theorem find?_rauwL (u : Nat) (v : Value) (uid : Nat) :
    ∀ T U', T.find? (fun J => J.id = uid) = some U' →
      (rauwL u v T).find? (fun J => J.id = uid) = some (rauwI u v U') := by
  intro T
  induction T with
  | nil => intro U' h; simp [List.find?] at h
  | cons K T' ih =>
    intro U' h
    by_cases hK : K.id = uid
    · rw [List.find?_cons_of_pos _ (by simp [hK])] at h
      show List.find? _ (rauwI u v K :: rauwL u v T') = _
      rw [List.find?_cons_of_pos _ (by simp [rauwI_id, hK])]
      rw [Option.some_inj] at h
      rw [h]
    · rw [List.find?_cons_of_neg _ (by simp [hK])] at h
      show List.find? _ (rauwI u v K :: rauwL u v T') = _
      rw [List.find?_cons_of_neg _ (by simp [rauwI_id, hK])]
      exact ih U' h

theorem getConstant_rauwI (J : Instr) (u : Nat) (v : Value)
    (hv : v.isConst = false) (c : Nat) (p : Value)
    (h : getConstantFromInstruction J = some (c, p)) :
    ∃ p', getConstantFromInstruction (rauwI u v J) = some (c, p') := by
  obtain ⟨i, opc, op0, op1⟩ := J
  rcases v with cv | rv | pv
  · simp [Value.isConst] at hv
  · rcases op0 with c0 | r0 | p0 <;> rcases op1 with c1 | r1 | p1 <;>
      simp_all [getConstantFromInstruction, rauwI, rauwV] <;>
      (try split_ifs) <;> (try simp_all) <;>
      (obtain ⟨hc, hp⟩ := h
       subst hp
       simp_all)
  · rcases op0 with c0 | r0 | p0 <;> rcases op1 with c1 | r1 | p1 <;>
      simp_all [getConstantFromInstruction, rauwI, rauwV] <;>
      (try split_ifs) <;> (try simp_all) <;>
      (obtain ⟨hc, hp⟩ := h
       subst hp
       simp_all)

theorem multiFold_main (c : Nat) (opp : Opcode) (prm : Value)
    (hprm : prm.isConst = false) (uid : Nat) (hpne : prm ≠ Value.ref uid) :
    ∀ (us : List Nat) (T : List Instr), us.Nodup → uid ∈ us →
      (∀ u ∈ us, prm ≠ Value.ref u) →
      (∃ U', T.find? (fun J => J.id = uid) = some U' ∧ U'.opcode = opp ∧
        ∃ p2, getConstantFromInstruction U' = some (c, p2)) →
      usesCount uid (us.foldl (multiUserStep c opp prm) T) = 0 ∧
      ∃ σ, us.foldl (multiUserStep c opp prm) T = T.map σ ∧
        (∀ J, (σ J).id = J.id) ∧ (∀ J, (σ J).opcode = J.opcode) ∧
        (∀ J, J.op0 = Value.ref uid → (σ J).op0 = prm) ∧
        (∀ J, J.op1 = Value.ref uid → (σ J).op1 = prm) := by
  intro us
  induction us with
  | nil =>
    intro T _ hmem
    cases hmem
  | cons u us' ih =>
    intro T hnd hmem hus hinv
    rw [List.foldl_cons]
    by_cases hu : u = uid
    · subst hu
      obtain ⟨U', hfind, hopU, p2, hclU⟩ := hinv
      have hstep : multiUserStep c opp prm T u = rauwL u prm T := by
        unfold multiUserStep
        rw [hfind]
        simp [hopU, hclU]
      rw [hstep]
      have h0 : usesCount u (rauwL u prm T) = 0 :=
        usesCount_rauwL_self u prm hpne T
      have hus' : ∀ v ∈ us', prm ≠ Value.ref v :=
        fun v hv => hus v (List.mem_cons_of_mem u hv)
      constructor
      · exact multiFold_noRef c opp prm u hpne us' (rauwL u prm T) h0
      · obtain ⟨σ', heq, hid, hopc, hp0, hp1⟩ :=
          multiFold_shape c opp prm us' (rauwL u prm T) hus'
        refine ⟨σ' ∘ rauwI u prm, ?_, ?_, ?_, ?_, ?_⟩
        · rw [heq]
          show (T.map (rauwI u prm)).map σ' = _
          rw [List.map_map]
        · intro J
          rw [Function.comp_apply, hid, rauwI_id]
        · intro J
          rw [Function.comp_apply, hopc, rauwI_opcode]
        · intro J hJ
          rw [Function.comp_apply]
          apply hp0
          show rauwV u prm J.op0 = prm
          rw [hJ]
          simp [rauwV]
        · intro J hJ
          rw [Function.comp_apply]
          apply hp1
          show rauwV u prm J.op1 = prm
          rw [hJ]
          simp [rauwV]
    · have hmem' : uid ∈ us' := by
        rcases List.mem_cons.mp hmem with h | h
        · exact absurd h.symm hu
        · exact h
      have hnd' := (List.nodup_cons.mp hnd).2
      have hus' : ∀ v ∈ us', prm ≠ Value.ref v :=
        fun v hv => hus v (List.mem_cons_of_mem u hv)
      rcases multiUserStep_cases c opp prm T u with hc0 | hc0 <;> rw [hc0]
      · exact ih T hnd' hmem' hus' hinv
      · obtain ⟨U', hfind, hopU, p2, hclU⟩ := hinv
        have hfind' := find?_rauwL u prm uid T U' hfind
        obtain ⟨p2', hclU'⟩ := getConstant_rauwI U' u prm hprm c p2 hclU
        have hinv' : ∃ U'', (rauwL u prm T).find? (fun J => J.id = uid) = some U''
            ∧ U''.opcode = opp ∧
            ∃ q, getConstantFromInstruction U'' = some (c, q) :=
          ⟨rauwI u prm U', hfind', by rw [rauwI_opcode]; exact hopU, p2', hclU'⟩
        obtain ⟨hz, σ', heq, hid, hopc, hp0, hp1⟩ :=
          ih (rauwL u prm T) hnd' hmem' hus' hinv'
        have hru : Value.ref uid ≠ Value.ref u := by
          simp only [ne_eq, Value.ref.injEq]
          intro h
          exact hu h.symm
        refine ⟨hz, σ' ∘ rauwI u prm, ?_, ?_, ?_, ?_, ?_⟩
        · rw [heq]
          show (T.map (rauwI u prm)).map σ' = _
          rw [List.map_map]
        · intro J
          rw [Function.comp_apply, hid, rauwI_id]
        · intro J
          rw [Function.comp_apply, hopc, rauwI_opcode]
        · intro J hJ
          rw [Function.comp_apply]
          apply hp0
          show rauwV u prm J.op0 = Value.ref uid
          rw [hJ, rauwV_eq_self u prm (Value.ref uid) hru]
        · intro J hJ
          rw [Function.comp_apply]
          apply hp1
          show rauwV u prm J.op1 = Value.ref uid
          rw [hJ, rauwV_eq_self u prm (Value.ref uid) hru]

/-- C6.  For an Add or Sub instruction I classified as (constant c,
variable Param), processing I in the cancellation pass replaces, for every
user U of I that has the opposite opcode and classifies to the same
constant c, every use of U throughout the function with Param - the
variable operand of the original instruction I; the pass only rewrites
operand slots (every instruction is mapped in place, keeping its id and
opcode), U ends the step with zero uses, and neither I nor U is removed. -/
theorem c6_cancellation (c : Nat) (I U : Instr) (prm p2 : Value)
    (S : List Instr)
    (hnd : (S.map Instr.id).Nodup)
    (hI : I ∈ S)
    (hop : I.opcode = Opcode.add ∨ I.opcode = Opcode.sub)
    (hcl : getConstantFromInstruction I = some (c, prm))
    (hprm : prm.isConst = false)
    (hnc : ∀ J ∈ S, 0 < usesIn I.id J → prm ≠ Value.ref J.id)
    (hU : U ∈ S) (huse : 0 < usesIn I.id U)
    (hopp : U.opcode = oppositeOp I.opcode)
    (hclU : getConstantFromInstruction U = some (c, p2)) :
    usesCount U.id (multiInstrStep I S) = 0
    ∧ (∃ σ, multiInstrStep I S = S.map σ ∧
        (∀ J, (σ J).id = J.id) ∧ (∀ J, (σ J).opcode = J.opcode) ∧
        (∀ J, J.op0 = Value.ref U.id → (σ J).op0 = prm) ∧
        (∀ J, J.op1 = Value.ref U.id → (σ J).op1 = prm))
    ∧ (∃ I' ∈ multiInstrStep I S, I'.id = I.id ∧ I'.opcode = I.opcode)
    ∧ (∃ U' ∈ multiInstrStep I S, U'.id = U.id ∧ U'.opcode = U.opcode) := by
  have hstep : multiInstrStep I S =
      ((S.filter (fun J => 0 < usesIn I.id J)).map Instr.id).foldl
        (multiUserStep c (oppositeOp I.opcode) prm) S := by
    unfold multiInstrStep
    rw [if_pos hop, hcl]
  have hpneU : prm ≠ Value.ref U.id := hnc U hU huse
  have husmem : U.id ∈ (S.filter (fun J => 0 < usesIn I.id J)).map Instr.id :=
    List.mem_map.mpr ⟨U, List.mem_filter.mpr ⟨hU, by simpa using huse⟩, rfl⟩
  have husnd : ((S.filter (fun J => 0 < usesIn I.id J)).map Instr.id).Nodup :=
    List.Nodup.sublist (List.Sublist.map Instr.id (List.filter_sublist S)) hnd
  have husprm : ∀ u ∈ (S.filter (fun J => 0 < usesIn I.id J)).map Instr.id,
      prm ≠ Value.ref u := by
    intro u hu
    obtain ⟨J, hJf, rfl⟩ := List.mem_map.mp hu
    obtain ⟨hJS, hJu⟩ := List.mem_filter.mp hJf
    exact hnc J hJS (by simpa using hJu)
  have hfind : S.find? (fun J => J.id = U.id) = some U :=
    find?_id_nodup U.id S hnd U hU rfl
  have hinv : ∃ U', S.find? (fun J => J.id = U.id) = some U' ∧
      U'.opcode = oppositeOp I.opcode ∧
      ∃ q, getConstantFromInstruction U' = some (c, q) :=
    ⟨U, hfind, hopp, p2, hclU⟩
  obtain ⟨hz, σ, heq, hid, hopc, hp0, hp1⟩ :=
    multiFold_main c (oppositeOp I.opcode) prm hprm U.id hpneU
      ((S.filter (fun J => 0 < usesIn I.id J)).map Instr.id) S
      husnd husmem husprm hinv
  rw [hstep]
  refine ⟨hz, ⟨σ, heq, hid, hopc, hp0, hp1⟩, ?_, ?_⟩
  · exact ⟨σ I, by rw [heq]; exact List.mem_map.mpr ⟨I, hI, rfl⟩, hid I, hopc I⟩
  · exact ⟨σ U, by rw [heq]; exact List.mem_map.mpr ⟨U, hU, rfl⟩, hid U, hopc U⟩

/-- Witness for C6 on the block [I = x + 5, U = I - 5, z = opaque use of
U]: after processing I in the cancellation pass U has zero uses. -/
theorem c6_cancellation_witness :
    usesCount 1 (multiInstrStep ⟨0, .add, .param 0, .constInt 5⟩
      [⟨0, .add, .param 0, .constInt 5⟩, ⟨1, .sub, .ref 0, .constInt 5⟩,
       ⟨2, .other 0, .ref 1, .ref 1⟩]) = 0 :=
  (c6_cancellation 5 ⟨0, .add, .param 0, .constInt 5⟩
    ⟨1, .sub, .ref 0, .constInt 5⟩ (.param 0) (.ref 0)
    [⟨0, .add, .param 0, .constInt 5⟩, ⟨1, .sub, .ref 0, .constInt 5⟩,
     ⟨2, .other 0, .ref 1, .ref 1⟩]
    (by decide) (by decide) (Or.inl rfl) rfl rfl (by decide)
    (by decide) (by decide) rfl rfl).1

theorem isPow2_eq (c : Nat) (h : isPow2 c = true) :
    2 ^ exactLogBase2 c = c := by
  unfold isPow2 at h
  simp only [Bool.and_eq_true, bne_iff_ne, ne_eq, decide_eq_true_eq] at h
  exact h.2

theorem toUnsigned_toSigned (w x : Nat) (hx : x < 2 ^ w) :
    toUnsigned w (toSigned w x) = x := by
  unfold toSigned toUnsigned
  split
  · push_cast
    rw [Int.emod_eq_of_lt (Int.ofNat_nonneg x) (by exact_mod_cast hx)]
    exact Int.toNat_natCast x
  · push_cast
    rw [show (x : Int) - 2 ^ w = x + 2 ^ w * (-1) by ring,
      Int.add_mul_emod_self_left]
    rw [Int.emod_eq_of_lt (Int.ofNat_nonneg x) (by exact_mod_cast hx)]
    exact Int.toNat_natCast x

theorem evalOp_sub_nat (w a b : Nat) (hb : b < 2 ^ w) :
    evalOp w Opcode.sub a b = (a + (2 ^ w - b)) % 2 ^ w := by
  unfold evalOp toUnsigned
  have h1 : ((a : Int) - b) % (2 ^ w : Nat) =
      (((a + (2 ^ w - b)) % 2 ^ w : Nat) : Int) := by
    push_cast [Nat.cast_sub hb.le]
    rw [show (a : Int) + (2 ^ w - b) = (a - b) + 2 ^ w * 1 by ring]
    rw [Int.add_mul_emod_self_left]
  rw [h1, Int.toNat_natCast]

/-- C3 as amended.  The optimizer does not preserve semantics on every
well-formed unit (see the counterexample): the signed-division rewrite uses
a logical shift, which is wrong for negative dividends, and the
cancellation transform can change values (C10).  What does hold is that
every individual rewrite equation used by the algebraic pass preserves the
computed w-bit value: x + 0 = x; x * 1 = x; x * 2 ^ k = x shifted left by
k; x * c = (x shifted left by k) + x when c - 1 = 2 ^ k in w-bit
arithmetic; x * c = (x shifted left by k) - x when c + 1 = 2 ^ k; x
sdiv 1 = x; and x sdiv 2 ^ k equals the logical right shift by k only for
dividends that are non-negative as signed w-bit values (with a positive
divisor). -/
theorem c3_amended_rewrite_value_preservation (w : Nat) (hw : 0 < w) :
    (∀ x, x < 2 ^ w → evalOp w Opcode.add x 0 = x)
    ∧ (∀ x, x < 2 ^ w → evalOp w Opcode.mul x 1 = x)
    ∧ (∀ x c, isPow2 c = true →
        evalOp w Opcode.mul x c = evalOp w Opcode.shl x (exactLogBase2 c))
    ∧ (∀ x c, isPow2 (subOne w c) = true →
        evalOp w Opcode.mul x c =
          evalOp w Opcode.add (evalOp w Opcode.shl x (exactLogBase2 (subOne w c))) x)
    ∧ (∀ x c, x < 2 ^ w → isPow2 (addOne w c) = true →
        evalOp w Opcode.mul x c =
          evalOp w Opcode.sub (evalOp w Opcode.shl x (exactLogBase2 (addOne w c))) x)
    ∧ (∀ x, 2 ≤ w → x < 2 ^ w → evalOp w Opcode.sdiv x 1 = x)
    ∧ (∀ x c, x < 2 ^ (w - 1) → c < 2 ^ (w - 1) → isPow2 c = true →
        evalOp w Opcode.sdiv x c = evalOp w Opcode.lshr x (exactLogBase2 c)) := by
  have hpow : 0 < 2 ^ w := Nat.pos_pow_of_pos w (by omega)
  refine ⟨?_, ?_, ?_, ?_, ?_, ?_, ?_⟩
  · intro x hx
    show (x + 0) % 2 ^ w = x
    rw [Nat.add_zero, Nat.mod_eq_of_lt hx]
  · intro x hx
    show (x * 1) % 2 ^ w = x
    rw [Nat.mul_one, Nat.mod_eq_of_lt hx]
  · intro x c hp
    show (x * c) % 2 ^ w = (x * 2 ^ exactLogBase2 c) % 2 ^ w
    rw [isPow2_eq c hp]
  · intro x c hp
    have hs := isPow2_eq _ hp
    show (x * c) % 2 ^ w =
      ((x * 2 ^ exactLogBase2 (subOne w c)) % 2 ^ w + x) % 2 ^ w
    have hmod : (c + (2 ^ w - 1)) % 2 ^ w = 2 ^ exactLogBase2 (subOne w c) := hs.symm
    have hklt : 2 ^ exactLogBase2 (subOne w c) < 2 ^ w := by
      rw [← hmod]
      exact Nat.mod_lt _ hpow
    have h2 : c + (2 ^ w - 1) ≡ 2 ^ exactLogBase2 (subOne w c) [MOD 2 ^ w] := by
      show (c + (2 ^ w - 1)) % 2 ^ w = 2 ^ exactLogBase2 (subOne w c) % 2 ^ w
      rw [hmod, Nat.mod_eq_of_lt hklt]
    have h3 : c + 2 ^ w ≡ 2 ^ exactLogBase2 (subOne w c) + 1 [MOD 2 ^ w] := by
      have := h2.add_right 1
      rwa [Nat.add_assoc, Nat.sub_add_cancel (by omega)] at this
    have h5 : c + 2 ^ w ≡ c [MOD 2 ^ w] := Nat.add_mod_right c (2 ^ w)
    have h4 : c ≡ 2 ^ exactLogBase2 (subOne w c) + 1 [MOD 2 ^ w] :=
      h5.symm.trans h3
    have h6 : x * c ≡ x * (2 ^ exactLogBase2 (subOne w c) + 1) [MOD 2 ^ w] :=
      h4.mul_left x
    rw [Nat.mod_add_mod]
    show x * c % 2 ^ w = _
    rw [show x * 2 ^ exactLogBase2 (subOne w c) + x =
      x * (2 ^ exactLogBase2 (subOne w c) + 1) from by ring]
    exact h6
  · intro x c hx hp
    have hs := isPow2_eq _ hp
    have hmod : (c + 1) % 2 ^ w = 2 ^ exactLogBase2 (addOne w c) := hs.symm
    have hklt : 2 ^ exactLogBase2 (addOne w c) < 2 ^ w := by
      rw [← hmod]
      exact Nat.mod_lt _ hpow
    have h2 : c + 1 ≡ 2 ^ exactLogBase2 (addOne w c) [MOD 2 ^ w] := by
      show (c + 1) % 2 ^ w = 2 ^ exactLogBase2 (addOne w c) % 2 ^ w
      rw [hmod, Nat.mod_eq_of_lt hklt]
    have h6 : x * (c + 1) ≡ x * 2 ^ exactLogBase2 (addOne w c) [MOD 2 ^ w] :=
      h2.mul_left x
    rw [evalOp_sub_nat w _ x hx]
    show x * c % 2 ^ w =
      (x * 2 ^ exactLogBase2 (addOne w c) % 2 ^ w + (2 ^ w - x)) % 2 ^ w
    have hA : x * 2 ^ exactLogBase2 (addOne w c) % 2 ^ w ≡
        x * 2 ^ exactLogBase2 (addOne w c) [MOD 2 ^ w] :=
      Nat.mod_modEq _ _
    have hgoal : x * c + x ≡
        (x * 2 ^ exactLogBase2 (addOne w c) % 2 ^ w + (2 ^ w - x)) + x
          [MOD 2 ^ w] := by
      have e1 : (x * 2 ^ exactLogBase2 (addOne w c) % 2 ^ w + (2 ^ w - x)) + x =
          x * 2 ^ exactLogBase2 (addOne w c) % 2 ^ w + 2 ^ w := by omega
      rw [e1, show x * c + x = x * (c + 1) from by ring]
      have h7 : x * 2 ^ exactLogBase2 (addOne w c) % 2 ^ w + 2 ^ w ≡
          x * 2 ^ exactLogBase2 (addOne w c) % 2 ^ w [MOD 2 ^ w] :=
        Nat.add_mod_right _ _
      exact (h6.trans hA.symm).trans h7.symm
    exact Nat.ModEq.add_right_cancel' x hgoal
  · intro x h2w hx
    show toUnsigned w (Int.tdiv (toSigned w x) (toSigned w 1)) = x
    have h1 : toSigned w 1 = 1 := by
      unfold toSigned
      rw [if_pos (show (1 : Nat) < 2 ^ (w - 1) by
        have : 2 ^ 1 ≤ 2 ^ (w - 1) := Nat.pow_le_pow_right (by omega) (by omega)
        omega)]
      simp
    rw [h1, Int.tdiv_one]
    exact toUnsigned_toSigned w x hx
  · intro x c hx hc hp
    have hs := isPow2_eq c hp
    have hwle : 2 ^ (w - 1) ≤ 2 ^ w := Nat.pow_le_pow_right (by omega) (by omega)
    show toUnsigned w (Int.tdiv (toSigned w x) (toSigned w c)) = x % 2 ^ w / 2 ^ exactLogBase2 c
    have hsx : toSigned w x = (x : Int) := by
      unfold toSigned
      rw [if_pos hx]
    have hsc : toSigned w c = (c : Int) := by
      unfold toSigned
      rw [if_pos hc]
    have htdiv : Int.tdiv (x : Int) (c : Int) = ((x / c : Nat) : Int) := rfl
    rw [hsx, hsc, htdiv]
    have hxd : x / c < 2 ^ w := lt_of_le_of_lt (Nat.div_le_self x c)
      (lt_of_lt_of_le hx hwle)
    unfold toUnsigned
    rw [show ((x / c : Nat) : Int) % ((2 ^ w : Nat) : Int) =
      (((x / c) % 2 ^ w : Nat) : Int) from by push_cast; rfl]
    rw [Int.toNat_natCast, Nat.mod_eq_of_lt hxd,
      Nat.mod_eq_of_lt (lt_of_lt_of_le hx hwle), hs]

/-- Witness for the amended C3 at width 8: multiplying 5 by 4 equals
shifting 5 left by 2, and dividing 5 by 2 equals shifting 5 right by 1. -/
theorem c3_amended_rewrite_value_preservation_witness :
    evalOp 8 Opcode.mul 5 4 = evalOp 8 Opcode.shl 5 (exactLogBase2 4)
    ∧ evalOp 8 Opcode.sdiv 5 2 = evalOp 8 Opcode.lshr 5 (exactLogBase2 2) := by
  have h := c3_amended_rewrite_value_preservation 8 (by decide)
  exact ⟨h.2.2.1 5 4 (by decide),
    h.2.2.2.2.2.2 5 2 (by decide) (by decide) (by decide)⟩

end LocalOpts
